import Mathlib

/-!
# Kerl ternary/binary conversion (`kerl/converter.go`)

A shallow embedding of the conversion between 243-trit / 81-tryte balanced
ternary hashes and 48-byte (384-bit two's-complement) integers, followed by the
properties proved about it.

Conventions of the embedding
* Go `int8` values are `Int`s; every `int8` operation is wrapped in `int8`
  (truncation to eight bits).  `uint32` and `uint64` values are `Nat`s reduced
  modulo `2^32` and `2^64`.
* A `[]byte` is a `List Nat` (elements below 256), a `[]uint32` a `List Nat`
  (elements below `2^32`), least-significant word first.
* The source views one buffer both as bytes and as 32-bit words (little-endian
  host); `wordsOfBytes` and `bytesOfWords` are that view.
* A Go string is the list of its runes (`List Char`, i.e. a valid UTF-8
  string); `len` counts bytes, `range` walks runes.
* A run-time panic (index out of range) is the result `none`.
* A Go result pair `(value, error)` is a pair whose second component is
  `none` for a `nil` error; a `nil` slice and the empty string are `[]`.
-/

namespace Kerl

/-! ## Machine integers -/

/-- Truncation to Go `int8` (eight bits, two's complement). -/
def int8 (x : Int) : Int := (x + 128) % 256 - 128

/-- Conversion of a signed integer to Go `uint32` (reduction modulo `2^32`). -/
def uint32 (x : Int) : Nat := (x % 4294967296).toNat

/-! ## Constants of package `consts` -/

/-- Modelled from the spec: `HashTrinarySize` of package `consts`, the 243 trits of a hash. -/
def HashTrinarySize : Nat := 243

/-- Modelled from the spec: `HashTrytesSize` of package `consts`, the 81 trytes of a hash. -/
def HashTrytesSize : Nat := 81

/-- Modelled from the spec: `HashBytesSize` of package `consts`, the 48 bytes of a hash. -/
def HashBytesSize : Nat := 48

/-- Modelled from the spec: `IntLength` of package `consts`, the 12 words of the 384-bit integer. -/
def IntLength : Nat := 12

/-- Modelled from the spec: `MinTryteValue` of package `consts`, the least tryte value -13. -/
def MinTryteValue : Int := -13

/-- Modelled from the spec: the sentinel length errors of package `consts`. -/
inductive Sentinel where
  | ErrInvalidTritsLength
  | ErrInvalidTrytesLength
  | ErrInvalidBytesLength
  deriving DecidableEq, Repr

/-- The radix used in the conversion. -/
def tryteRadix : Nat := 27

/-- The middle of the domain described by one tryte, `1 + 3 + 9`. -/
def halfTryte : Int := 1 + 3 + 9

/-- Words of `halfThree`, least-significant first. -/
def halfThree : List Nat :=
  [0xa5ce8964, 0x9f007669, 0x1484504f, 0x3ade00d9, 0x0c24486e, 0x50979d57,
   0x79a4c702, 0x48bbae36, 0xa9f6808b, 0xaa06a805, 0xa87fabdf, 0x5e69ebef]

/-- Words of `negHalfThree`, least-significant first. -/
def negHalfThree : List Nat :=
  [0x5a31769c, 0x60ff8996, 0xeb7bafb0, 0xc521ff26, 0xf3dbb791, 0xaf6862a8,
   0x865b38fd, 0xb74451c9, 0x56097f74, 0x55f957fa, 0x57805420, 0xa1961410]

/-- Words of `trit243`, least-significant first. -/
def trit243 : List Nat :=
  [0x4b9d12c9, 0x3e00ecd3, 0x2908a09f, 0x75bc01b2, 0x184890dc, 0xa12f3aae,
   0xf3498e04, 0x91775c6c, 0x53ed0116, 0x540d500b, 0x50ff57bf, 0xbcd3d7df]

/-- Lookup table from tryte values (shifted by 13) to trit triples. -/
def tryteValueToTritsLUT : List (Int × Int × Int) :=
  [(-1, -1, -1), (0, -1, -1), (1, -1, -1), (-1, 0, -1), (0, 0, -1), (1, 0, -1),
   (-1, 1, -1), (0, 1, -1), (1, 1, -1), (-1, -1, 0), (0, -1, 0), (1, -1, 0),
   (-1, 0, 0), (0, 0, 0), (1, 0, 0), (-1, 1, 0), (0, 1, 0), (1, 1, 0),
   (-1, -1, 1), (0, -1, 1), (1, -1, 1), (-1, 0, 1), (0, 0, 1), (1, 0, 1),
   (-1, 1, 1), (0, 1, 1), (1, 1, 1)]

/-- Lookup table from tryte values (shifted by 13) to tryte letters,
the string "NOPQRSTUVWXYZ9ABCDEFGHIJKLM". -/
def tryteValueToTyteLUT : List Char :=
  ['N', 'O', 'P', 'Q', 'R', 'S', 'T', 'U', 'V', 'W', 'X', 'Y', 'Z', '9',
   'A', 'B', 'C', 'D', 'E', 'F', 'G', 'H', 'I', 'J', 'K', 'L', 'M']

/-! ## Strings, slices and the word view of a byte buffer -/

/-- Number of bytes of the UTF-8 encoding of a rune. -/
def runeLen (c : Char) : Nat :=
  if c.toNat < 128 then 1 else if c.toNat < 2048 then 2 else if c.toNat < 65536 then 3 else 4

/-- Go `len` of a string: its number of bytes. -/
def strLen (s : List Char) : Nat := (s.map runeLen).sum

/-- Indexing of a table by an `int8` index; `none` is the out-of-range panic. -/
def lutGet {α : Type} (lut : List α) (idx : Int) : Option α :=
  if 0 ≤ idx then lut.get? idx.toNat else none

/-- The 32-bit words seen through a byte buffer on a little-endian host. -/
def wordsOfBytes : List Nat → List Nat
  | b0 :: b1 :: b2 :: b3 :: rest =>
      (b0 + 256 * b1 + 65536 * b2 + 16777216 * b3) :: wordsOfBytes rest
  | _ => []

/-- The bytes seen through a buffer of 32-bit words on a little-endian host. -/
def bytesOfWords : List Nat → List Nat
  | [] => []
  | w :: ws =>
      (w % 256) :: (w / 256 % 256) :: (w / 65536 % 256) :: (w / 16777216 % 256) :: bytesOfWords ws

/-- Unsigned value of a word buffer, least-significant word first. -/
def wordsVal : List Nat → Nat
  | [] => 0
  | w :: ws => w + 4294967296 * wordsVal ws

/-- The `k` low words of a natural number, least-significant first. -/
def natToWords : Nat → Nat → List Nat
  | 0, _ => []
  | k + 1, n => (n % 4294967296) :: natToWords k (n / 4294967296)

/-- Unsigned value of a byte sequence read big-endian. -/
def bytesValBE (bs : List Nat) : Nat := bs.foldl (fun acc x => 256 * acc + x) 0

/-- Value of a 48-byte sequence read as a big-endian 384-bit two's-complement integer. -/
def bytesInt (bs : List Nat) : Int :=
  if bytesValBE bs < 2 ^ 383 then (bytesValBE bs : Int) else (bytesValBE bs : Int) - 2 ^ 384

/-! ## Package `kerl/bigint` -/

/-- Modelled from the spec: `bigint.IsNegative` (package `kerl/bigint` is not among the
sources): true iff the sign bit of the most-significant word is set. -/
def IsNegative (b : List Nat) : Bool := decide (2147483648 ≤ b.getLastD 0)

/-- Signed (two's-complement) value of a word buffer. -/
def wordsInt (b : List Nat) : Int :=
  if IsNegative b then (wordsVal b : Int) - (4294967296 : Int) ^ b.length else (wordsVal b : Int)

/-- Modelled from the spec: `bigint.MustCmp`, the signed numeric comparison with result
in -1, 0, 1. -/
def MustCmp (a b : List Nat) : Int :=
  if wordsInt a < wordsInt b then -1 else if wordsInt b < wordsInt a then 1 else 0

/-- Modelled from the spec: `bigint.MustAdd`, in-place fixed-width two's-complement
addition; the result replaces the first operand. -/
def MustAdd (b rh : List Nat) : List Nat :=
  natToWords b.length (wordsVal b + wordsVal rh)

/-- Modelled from the spec: `bigint.MustSub`, in-place fixed-width two's-complement
subtraction; the result replaces the first operand. -/
def MustSub (b rh : List Nat) : List Nat :=
  natToWords b.length (wordsVal b + (4294967296 ^ b.length - wordsVal rh % 4294967296 ^ b.length))

/-- Modelled from the spec: `bigint.AddSmall`, adds a small scalar to the least-significant
word with carry propagation and returns the index of the most-significant word affected.
When the carry leaves the last word (an overflow the spec excludes for valid input) the
words wrap and the index returned is the length of the buffer, one past its last word. -/
def AddSmall : List Nat → Nat → List Nat × Nat
  | [], _ => ([], 0)
  | w :: ws, a =>
      if w + a < 4294967296 then ((w + a) :: ws, 0)
      else
        let r := AddSmall ws ((w + a) / 4294967296)
        (((w + a) % 4294967296) :: r.1, r.2 + 1)

/-- Modelled from the spec: `bigint.Reverse`, reverses the byte sequence. -/
def Reverse (bs : List Nat) : List Nat := bs.reverse

/-- Modelled from the spec: `CanBeHash` of package `trinary`: exactly 243 trits
are supplied. -/
def CanBeHash (trits : List Int) : Bool := decide (trits.length = HashTrinarySize)

/-! ## Errors (`errors.Wrapf`) -/

/-- Expansion of the verb `%d` of a format string with one numeric argument. -/
def formatD : List Char → Nat → List Char
  | [], _ => []
  | [c], _ => [c]
  | c :: d :: rest, n =>
      if c = '%' ∧ d = 'd' then (Nat.repr n).toList ++ formatD rest n
      else c :: formatD (d :: rest) n

/-- An error built by `errors.Wrapf`: the wrapped sentinel and the formatted message. -/
structure GoError where
  cause : Sentinel
  msg : String
  deriving DecidableEq, Repr

/-- Wrapping of a sentinel with a formatted message, as `errors.Wrapf` builds it. -/
def Wrapf (cause : Sentinel) (format : String) (arg : Nat) : GoError :=
  ⟨cause, String.mk (formatD format.toList arg)⟩

/-! ## Lookup conversions -/

/-- Letters of a sequence of tryte values. -/
def tryteValuesToTrytes : List Int → Option (List Char)
  | [] => some []
  | v :: vs =>
      match lutGet tryteValueToTyteLUT (int8 (v - MinTryteValue)), tryteValuesToTrytes vs with
      | some c, some rest => some (c :: rest)
      | _, _ => none

/-- Trits of a sequence of tryte values, three per value. -/
def tryteValuesToTrits : List Int → Option (List Int)
  | [] => some []
  | v :: vs =>
      match lutGet tryteValueToTritsLUT (int8 (v - MinTryteValue)), tryteValuesToTrits vs with
      | some t, some rest => some (t.1 :: t.2.1 :: t.2.2 :: rest)
      | _, _ => none

/-- Tryte value written for one rune of the input string. -/
def tryteValueOfRune (tryte : Char) : Int :=
  if tryte = '9' then 0
  else if tryte.toNat ≥ ('N').toNat then int8 (int8 (int8 tryte.toNat - ('N').toNat) + MinTryteValue)
  else int8 (int8 (int8 tryte.toNat - ('A').toNat) + 1)

/-- Tryte values of a string: one slot per byte, written at the first byte of each rune. -/
def trytesToTryteValues : List Char → List Int
  | [] => []
  | tryte :: rest =>
      tryteValueOfRune tryte :: (List.replicate (runeLen tryte - 1) 0 ++ trytesToTryteValues rest)

/-- Tryte values of a sequence of trits, one per complete group of three. -/
def tritsToTryteValues : List Int → List Int
  | t0 :: t1 :: t2 :: rest =>
      int8 (int8 (t0 + int8 (t1 * 3)) + int8 (t2 * 9)) :: tritsToTryteValues rest
  | _ => []

/-! ## Canonicalization -/

/-- Takes a tryte value of three trits a+3b+9c and returns a+3b. -/
def tryteZeroLastTrit (v : Int) : Int :=
  if v > 4 then int8 (v - 9)
  else if v < -4 then int8 (v + 9)
  else v

/-- Changes the bigint so that the corresponding ternary number has its last trit zero. -/
def bigintZeroLastTrit (b : List Nat) : List Nat :=
  if IsNegative b then
    if MustCmp b negHalfThree < 0 then MustAdd b trit243 else b
  else
    if MustCmp b halfThree > 0 then MustSub b trit243 else b

/-! ## Encoder -/

/-- Inner loop of the encoder: multiplies the `k` low words by the radix, threading the
carry; returns the buffer and the carry out of word `k - 1`. -/
def mulRadix : Nat → List Nat → Nat → List Nat × Nat
  | 0, b, carry => (b, carry)
  | _ + 1, [], carry => ([], carry)
  | k + 1, w :: ws, carry =>
      let v := (tryteRadix * w + carry) % 18446744073709551616
      let r := mulRadix k ws (v / 4294967296 % 4294967296)
      ((v % 4294967296) :: r.1, r.2)

/-- One iteration of the encoder loop on the state `(b, nzIndex)` with tryte value `v`,
for a state whose `nzIndex` lies inside the buffer (`encLoop` checks it before each
iteration). -/
def encStep (st : List Nat × Nat) (v : Int) : List Nat × Nat :=
  let r := mulRadix (st.2 + 1) st.1 0
  let st1 : List Nat × Nat :=
    if r.2 > 0 ∧ st.2 < IntLength - 1 then (r.1.set (st.2 + 1) r.2, st.2 + 1) else (r.1, st.2)
  let a := AddSmall st1.1 (uint32 (int8 (v + halfTryte)))
  (a.1, if a.2 > st1.2 then a.2 else st1.2)

/-- Initial state of the encoder loop: word 0 holds the unbalanced two-trit top digit. -/
def encInit (vs : List Int) : List Nat × Nat :=
  ((List.replicate IntLength 0).set 0
      (uint32 (int8 (tryteZeroLastTrit (vs.getD (HashTrytesSize - 1) 0) + 4))), 0)

/-- The encoder loop over the tryte values in the order visited, from the state
`(b, nzIndex)`. The multiply of an iteration reads `b[i]` for every `i ≤ nzIndex`; when
`nzIndex` is not inside the buffer that is the index-out-of-range panic, `none`. -/
def encLoop : List Int → List Nat × Nat → Option (List Nat × Nat)
  | [], st => some st
  | v :: vs, st => if st.2 < st.1.length then encLoop vs (encStep st v) else none

/-- The 48 bytes of 81 tryte values; the loop runs over `vs[79]` down to `vs[0]`. -/
def tryteValuesToBytes (vs : List Int) : Option (List Nat) :=
  if vs.length < HashTrytesSize then none
  else
    (encLoop ((vs.take (HashTrytesSize - 1)).reverse) (encInit vs)).map
      (fun st => Reverse (bytesOfWords (MustSub st.1 halfThree)))

/-! ## Decoder -/

/-- Inner loop of the decoder: long division of the `k` low words by the radix, from word
`k - 1` down to word 0; returns the buffer and the remainder. -/
def divRadix : Nat → List Nat → List Nat × Nat
  | 0, b => (b, 0)
  | _ + 1, [] => ([], 0)
  | k + 1, w :: ws =>
      let r := divRadix k ws
      let v := ((r.2 <<< 32) % 18446744073709551616) ||| w
      ((v / tryteRadix % 4294967296) :: r.1, v % tryteRadix % 4294967296)

/-- The decoder loop: `n` iterations from buffer `b` and index `nzIndex`; returns the tryte
values written and the final buffer. -/
def decLoop : Nat → List Nat → Nat → List Int × List Nat
  | 0, b, _ => ([], b)
  | n + 1, b, nzIndex =>
      let r := divRadix (nzIndex + 1) b
      let v := int8 (int8 r.2 - halfTryte)
      let nz := if nzIndex > 0 ∧ r.1.getD nzIndex 0 = 0 then nzIndex - 1 else nzIndex
      let rest := decLoop n r.1 nz
      (v :: rest.1, rest.2)

/-- The working integer of the decoder before the divisions. -/
def decInit (bytes : List Nat) : List Nat :=
  MustAdd (bigintZeroLastTrit ((wordsOfBytes (Reverse bytes)).take IntLength)) halfThree

/-- The 81 tryte values of 48 bytes. -/
def bytesToTryteValues (bytes : List Nat) : Option (List Int) :=
  if bytes.length < HashBytesSize then none
  else
    let r := decLoop (HashTrytesSize - 1) (decInit bytes) (IntLength - 1)
    some (r.1 ++ [tryteZeroLastTrit (int8 (int8 (r.2.getD 0 0) - halfTryte))])

/-! ## Exported functions -/

/-- Changes a chunk of 48 bytes so that the corresponding ternary number has its last trit
zero; the result is the content of the buffer afterwards. -/
def KerlBytesZeroLastTrit (bytes : List Nat) : Option (List Nat) :=
  if bytes.length < HashBytesSize then none
  else
    let rb := Reverse bytes
    some (Reverse (bytesOfWords (bigintZeroLastTrit ((wordsOfBytes rb).take IntLength))
      ++ rb.drop HashBytesSize))

/-- Bytes of 243 trits. -/
def KerlTritsToBytes (trits : List Int) : Option (List Nat × Option GoError) :=
  if !CanBeHash trits then
    some ([], some (Wrapf Sentinel.ErrInvalidTritsLength "must be %d in size" HashTrinarySize))
  else
    (tryteValuesToBytes (tritsToTryteValues trits)).map (fun bs => (bs, none))

/-- Bytes of 81 trytes. -/
def KerlTrytesToBytes (trytes : List Char) : Option (List Nat × Option GoError) :=
  if strLen trytes ≠ HashTrytesSize then
    some ([], some (Wrapf Sentinel.ErrInvalidTrytesLength "must be %d in size" HashBytesSize))
  else
    (tryteValuesToBytes (trytesToTryteValues trytes)).map (fun bs => (bs, none))

/-- Trits of 48 bytes. -/
def KerlBytesToTrits (b : List Nat) : Option (List Int × Option GoError) :=
  if b.length ≠ HashBytesSize then
    some ([], some (Wrapf Sentinel.ErrInvalidBytesLength "must be %d in size" HashBytesSize))
  else
    ((bytesToTryteValues b).bind tryteValuesToTrits).map (fun ts => (ts, none))

/-- Trytes of 48 bytes. -/
def KerlBytesToTrytes (b : List Nat) : Option (List Char × Option GoError) :=
  if b.length ≠ HashBytesSize then
    some ([], some (Wrapf Sentinel.ErrInvalidBytesLength "must be %d in size" HashBytesSize))
  else
    ((bytesToTryteValues b).bind tryteValuesToTrytes).map (fun ts => (ts, none))

/-! ## Vocabulary of the statements -/

/-- Every element of a word buffer is a 32-bit word. -/
def WordsOK (l : List Nat) : Prop := ∀ w ∈ l, w < 4294967296

/-- Every element of a byte buffer is a byte. -/
def BytesOK (l : List Nat) : Prop := ∀ x ∈ l, x < 256

/-- Value of a digit sequence in radix 27, least-significant digit first. -/
def radixVal : List Int → Int
  | [] => 0
  | d :: ds => d + 27 * radixVal ds

/-- Unsigned value of a byte sequence read little-endian. -/
def bytesValLE : List Nat → Nat
  | [] => 0
  | x :: xs => x + 256 * bytesValLE xs

/-- The number `halfThree`, the sum of the powers of three below `3^242`. -/
def halfThreeVal : Nat := (3 ^ 242 - 1) / 2

/-- Canonical representative of a 384-bit signed value: the last trit set to zero. -/
def canonInt (x : Int) : Int :=
  if x > (halfThreeVal : Int) then x - 3 ^ 242
  else if x < -(halfThreeVal : Int) then x + 3 ^ 242
  else x

/-- Invariant of the encoder loop: the buffer holds `n` and every word above `nzIndex`
is zero. -/
def EncInv (st : List Nat × Nat) (n : Nat) : Prop :=
  st.1.length = IntLength ∧ WordsOK st.1 ∧ st.2 < IntLength ∧ wordsVal st.1 = n ∧
    n < 4294967296 ^ (st.2 + 1)

/-- Value of the unbalanced radix-27 digits `v + 13` of `l` (least-significant first)
below a top digit `t`. -/
def unbal : List Int → Nat → Nat
  | [], t => t
  | v :: vs, t => (v + 13).toNat + 27 * unbal vs t

/-- The `n` low balanced radix-27 digits of `u`, least-significant first. -/
def digits27 : Nat → Nat → List Int
  | 0, _ => []
  | n + 1, u => (((u % 27 : Nat) : Int) - 13) :: digits27 n (u / 27)

/-- Every element is a tryte value, between -13 and 13. -/
def TrytesOK (vs : List Int) : Prop := ∀ v ∈ vs, -13 ≤ v ∧ v ≤ 13

/-- The unbalanced value the encoder loop builds from 81 tryte values. -/
def encVal (vs : List Int) : Nat :=
  unbal (vs.take 80) (tryteZeroLastTrit (vs.getD 80 0) + 4).toNat

/-- The unbalanced value the decoder divides: the canonicalized value of the bytes
shifted by `halfThree`. -/
def decVal (bytes : List Nat) : Nat := (canonInt (bytesInt bytes) + halfThreeVal).toNat

/-- The 48 bytes of the balanced value `u - halfThree`, for an unbalanced value `u`. -/
def encBytes (u : Nat) : List Nat :=
  Reverse (bytesOfWords (natToWords 12 (u + (4294967296 ^ 12 - halfThreeVal))))

/-- Every element is a trit: -1, 0 or 1. -/
def TritsOK (ts : List Int) : Prop := ∀ t ∈ ts, -1 ≤ t ∧ t ≤ 1

/-- Every rune is one of the 27 letters of the tryte alphabet. -/
def AlphabetOK (s : List Char) : Prop := ∀ c ∈ s, c ∈ tryteValueToTyteLUT

/-- The 81 tryte values the decoder extracts from the unbalanced value `u`. -/
def decTrytes (u : Nat) : List Int :=
  digits27 80 u ++ [((u / 27 ^ 80 : Nat) : Int) - 4]

/-- A canonical 48-byte value: the bytes of the first tryte string of the test table. -/
def sampleBytes : List Nat :=
  [63, 27, 151, 39, 201, 103, 221, 164, 240, 239, 152, 3, 47, 151, 72, 56, 100, 224, 220, 158,
   211, 145, 221, 91, 139, 200, 19, 61, 156, 231, 127, 225, 130, 254, 247, 73, 222, 136, 45,
   172, 233, 43, 101, 92, 107, 186, 34, 223]

/-- A 48-byte value outside the canonical range: the least 384-bit integer. -/
def minBytes : List Nat := 128 :: List.replicate 47 0

/-- The first tryte string of the test table. -/
def sampleTrytes : List Char :=
  "HHPELNTNJIOKLYDUW9NDULWPHCWFRPTDIUWLYUHQWWJVPAKKGKOAZFJPQJBLNDPALCVXGJLRBFSHATF9C".toList

/-- The 81 tryte values of the first tryte string of the test table. -/
def sampleValues : List Int := trytesToTryteValues sampleTrytes

/-- A sequence of 243 trits, all equal to 1. -/
def sampleTrits : List Int := List.replicate 243 1

/-- Value of a trit sequence in balanced ternary, least-significant trit first. -/
def tritVal : List Int → Int
  | [] => 0
  | t :: ts => t + 3 * tritVal ts

/-- State `(b, nzIndex)` of the encoder after `k` iterations of its loop. -/
def encState (vs : List Int) (k : Nat) : List Nat × Nat :=
  (((vs.take (HashTrytesSize - 1)).reverse).take k).foldl encStep (encInit vs)

/-- One iteration of the decoder loop on the state `(b, nzIndex)`: the division and the
update of `nzIndex`. -/
def decStep (st : List Nat × Nat) : List Nat × Nat :=
  let r := divRadix (st.2 + 1) st.1
  (r.1, if st.2 > 0 ∧ r.1.getD st.2 0 = 0 then st.2 - 1 else st.2)

/-- State `(b, nzIndex)` of the decoder after `k` iterations of its loop. -/
def decState (bytes : List Nat) (k : Nat) : List Nat × Nat :=
  decStep^[k] (decInit bytes, IntLength - 1)

/-- A string of 81 one-byte characters, 79 of them letters of the tryte alphabet, on which
the addition in the encoder loop carries out of the last word of the buffer. -/
def overflowTrytes : List Char :=
  "9MAIMJAJOEFXT9LIFF9XUSXRSQUOQFUTYPWUVFPXUZZKVHTUMNKKKZSTDFJGIGSJUDUEMKFYNM9(UXTQ~".toList

/-! ## Machine integer lemmas -/

theorem int8_of_range {x : Int} (h1 : -128 ≤ x) (h2 : x ≤ 127) : int8 x = x := by
  unfold int8; omega

theorem int8_range (x : Int) : -128 ≤ int8 x ∧ int8 x ≤ 127 := by
  unfold int8; omega

theorem uint32_of_nat {n : Nat} (h : n < 4294967296) : uint32 (n : Int) = n := by
  unfold uint32; omega

theorem uint32_lt (x : Int) : uint32 x < 4294967296 := by
  unfold uint32; omega

/-! ## Word buffers and their values -/

theorem WordsOK_cons {w : Nat} {ws : List Nat} :
    WordsOK (w :: ws) ↔ w < 4294967296 ∧ WordsOK ws := by
  simp [WordsOK]

theorem WordsOK_nil : WordsOK [] := by
  simp [WordsOK]

theorem wordsVal_lt {l : List Nat} (h : WordsOK l) : wordsVal l < 4294967296 ^ l.length := by
  induction l with
  | nil => simp [wordsVal]
  | cons w ws ih =>
    rw [WordsOK_cons] at h
    have := ih h.2
    simp only [wordsVal, List.length_cons, pow_succ]
    have hw := h.1
    nlinarith

theorem length_natToWords (k n : Nat) : (natToWords k n).length = k := by
  induction k generalizing n with
  | zero => rfl
  | succ k ih => simp [natToWords, ih]

theorem WordsOK_natToWords (k n : Nat) : WordsOK (natToWords k n) := by
  induction k generalizing n with
  | zero => simp [natToWords, WordsOK]
  | succ k ih =>
    simp only [natToWords, WordsOK_cons]
    exact ⟨Nat.mod_lt _ (by norm_num), ih _⟩

theorem wordsVal_natToWords (k n : Nat) :
    wordsVal (natToWords k n) = n % 4294967296 ^ k := by
  induction k generalizing n with
  | zero => simp [natToWords, wordsVal, Nat.mod_one]
  | succ k ih =>
    simp only [natToWords, wordsVal, ih, pow_succ]
    rw [Nat.mul_comm (4294967296 ^ k) 4294967296, Nat.mod_mul]

theorem natToWords_wordsVal {l : List Nat} (h : WordsOK l) :
    natToWords l.length (wordsVal l) = l := by
  induction l with
  | nil => rfl
  | cons w ws ih =>
    rw [WordsOK_cons] at h
    simp only [List.length_cons, natToWords, wordsVal]
    have h1 : (w + 4294967296 * wordsVal ws) % 4294967296 = w := by omega
    have h2 : (w + 4294967296 * wordsVal ws) / 4294967296 = wordsVal ws := by omega
    rw [h1, h2, ih h.2]

theorem natToWords_congr {k n m : Nat} (h : n % 4294967296 ^ k = m % 4294967296 ^ k) :
    natToWords k n = natToWords k m := by
  have h1 := natToWords_wordsVal (WordsOK_natToWords k n)
  have h2 := natToWords_wordsVal (WordsOK_natToWords k m)
  rw [length_natToWords, wordsVal_natToWords] at h1 h2
  rw [← h1, ← h2, h]

/-! ## The byte view of a word buffer -/

theorem BytesOK_cons {x : Nat} {xs : List Nat} : BytesOK (x :: xs) ↔ x < 256 ∧ BytesOK xs := by
  simp [BytesOK]

theorem bytes_four {bs : List Nat} {k : Nat} (h : bs.length = 4 * (k + 1)) :
    ∃ b0 b1 b2 b3 rest, bs = b0 :: b1 :: b2 :: b3 :: rest ∧ rest.length = 4 * k := by
  match bs, h with
  | b0 :: b1 :: b2 :: b3 :: rest, h =>
    refine ⟨b0, b1, b2, b3, rest, rfl, ?_⟩
    simp only [List.length_cons] at h
    omega

theorem wordsOfBytes_spec {k : Nat} : ∀ {bs : List Nat}, bs.length = 4 * k → BytesOK bs →
    (wordsOfBytes bs).length = k ∧ WordsOK (wordsOfBytes bs) ∧
      wordsVal (wordsOfBytes bs) = bytesValLE bs ∧ bytesOfWords (wordsOfBytes bs) = bs := by
  induction k with
  | zero =>
    intro bs h _
    have : bs = [] := List.length_eq_zero.mp (by omega)
    subst this
    simp [wordsOfBytes, WordsOK, wordsVal, bytesValLE, bytesOfWords]
  | succ k ih =>
    intro bs h hb
    obtain ⟨b0, b1, b2, b3, rest, rfl, hr⟩ := bytes_four h
    simp only [BytesOK_cons] at hb
    obtain ⟨h0, h1, h2, h3, hrest⟩ := hb
    obtain ⟨i1, i2, i3, i4⟩ := ih hr hrest
    simp only [wordsOfBytes, List.length_cons, i1, WordsOK_cons, wordsVal, i3, bytesValLE,
      bytesOfWords, i4]
    refine ⟨trivial, ⟨by omega, i2⟩, by omega, ?_⟩
    have e0 : (b0 + 256 * b1 + 65536 * b2 + 16777216 * b3) % 256 = b0 := by omega
    have e1 : (b0 + 256 * b1 + 65536 * b2 + 16777216 * b3) / 256 % 256 = b1 := by omega
    have e2 : (b0 + 256 * b1 + 65536 * b2 + 16777216 * b3) / 65536 % 256 = b2 := by omega
    have e3 : (b0 + 256 * b1 + 65536 * b2 + 16777216 * b3) / 16777216 % 256 = b3 := by omega
    rw [e0, e1, e2, e3]

theorem bytesOfWords_spec : ∀ {ws : List Nat}, WordsOK ws →
    (bytesOfWords ws).length = 4 * ws.length ∧ BytesOK (bytesOfWords ws) ∧
      bytesValLE (bytesOfWords ws) = wordsVal ws ∧ wordsOfBytes (bytesOfWords ws) = ws := by
  intro ws
  induction ws with
  | nil => intro _; simp [bytesOfWords, BytesOK, bytesValLE, wordsVal, wordsOfBytes]
  | cons w ws ih =>
    intro h
    rw [WordsOK_cons] at h
    obtain ⟨i1, i2, i3, i4⟩ := ih h.2
    have hw := h.1
    simp only [bytesOfWords, List.length_cons, i1, BytesOK_cons, bytesValLE, i3, wordsVal,
      wordsOfBytes, i4]
    refine ⟨by omega, ⟨by omega, by omega, by omega, by omega, i2⟩, by omega, ?_⟩
    have e : w % 256 + 256 * (w / 256 % 256) + 65536 * (w / 65536 % 256)
        + 16777216 * (w / 16777216 % 256) = w := by omega
    rw [e]

theorem bytesValBE_append (xs : List Nat) (x : Nat) :
    bytesValBE (xs ++ [x]) = 256 * bytesValBE xs + x := by
  simp [bytesValBE, List.foldl_append]

theorem bytesValLE_reverse (bs : List Nat) : bytesValLE bs.reverse = bytesValBE bs := by
  induction bs using List.reverseRecOn with
  | nil => rfl
  | append_singleton xs x ih =>
    rw [List.reverse_append, bytesValBE_append, ← ih]
    simp [bytesValLE]
    omega

theorem BytesOK_reverse {bs : List Nat} (h : BytesOK bs) : BytesOK bs.reverse := by
  intro x hx
  exact h x (List.mem_reverse.mp hx)

/-! ## The inner loops on words -/

theorem wordsVal_tail_lt {w : Nat} {ws : List Nat} {k : Nat}
    (h : wordsVal (w :: ws) < 4294967296 ^ (k + 1)) : wordsVal ws < 4294967296 ^ k := by
  simp only [wordsVal, pow_succ] at h
  apply Nat.lt_of_mul_lt_mul_left (a := 4294967296)
  rw [Nat.mul_comm 4294967296 (4294967296 ^ k)]
  omega

theorem wordsVal_cons_lt {w : Nat} {ws : List Nat} {k : Nat} (hw : w < 4294967296)
    (h : wordsVal ws < 4294967296 ^ k) : wordsVal (w :: ws) < 4294967296 ^ (k + 1) := by
  simp only [wordsVal, pow_succ]
  have : 4294967296 * (wordsVal ws + 1) ≤ 4294967296 * 4294967296 ^ k :=
    Nat.mul_le_mul_left _ h
  rw [Nat.mul_comm (4294967296 ^ k) 4294967296]
  omega

theorem mulRadix_spec : ∀ (k : Nat) (b : List Nat) (c : Nat), k ≤ b.length → WordsOK b →
    wordsVal b < 4294967296 ^ k → c < 4294967296 →
    (mulRadix k b c).1.length = b.length ∧ WordsOK (mulRadix k b c).1 ∧
      wordsVal (mulRadix k b c).1 < 4294967296 ^ k ∧
      wordsVal (mulRadix k b c).1 + 4294967296 ^ k * (mulRadix k b c).2 = 27 * wordsVal b + c ∧
      (mulRadix k b c).2 < 4294967296 := by
  intro k
  induction k with
  | zero =>
    intro b c _ hb hv hc
    simp only [mulRadix, pow_zero] at hv ⊢
    refine ⟨trivial, hb, hv, by omega, hc⟩
  | succ k ih =>
    intro b c hk hb hv hc
    match b, hk, hb, hv with
    | w :: ws, hk, hb, hv =>
      rw [WordsOK_cons] at hb
      have hw := hb.1
      have hvs := wordsVal_tail_lt hv
      have hv64 : (tryteRadix * w + c) % 18446744073709551616 = 27 * w + c := by
        simp only [tryteRadix]; omega
      have hc2 : (27 * w + c) / 4294967296 % 4294967296 = (27 * w + c) / 4294967296 := by omega
      have hc3 : (27 * w + c) / 4294967296 < 4294967296 := by omega
      obtain ⟨i1, i2, i3, i4, i5⟩ :=
        ih ws ((27 * w + c) / 4294967296) (by simpa using hk) hb.2 hvs hc3
      simp only [mulRadix, hv64, hc2, List.length_cons, i1, WordsOK_cons]
      refine ⟨trivial, ⟨by omega, i2⟩, wordsVal_cons_lt (by omega) i3, ?_, i5⟩
      simp only [wordsVal, pow_succ]
      have e : 4294967296 ^ k * 4294967296 * (mulRadix k ws ((27 * w + c) / 4294967296)).2
          = 4294967296 * (4294967296 ^ k * (mulRadix k ws ((27 * w + c) / 4294967296)).2) := by
        ring
      rw [e]
      omega

theorem wordsVal_set : ∀ (b : List Nat) (i c : Nat), i < b.length → WordsOK b →
    wordsVal b < 4294967296 ^ i → c < 4294967296 →
    (b.set i c).length = b.length ∧ WordsOK (b.set i c) ∧
      wordsVal (b.set i c) = wordsVal b + 4294967296 ^ i * c := by
  intro b
  induction b with
  | nil => intro i c hi; simp at hi
  | cons w ws ih =>
    intro i c hi hb hv hc
    rw [WordsOK_cons] at hb
    cases i with
    | zero =>
      simp only [pow_zero, wordsVal] at hv
      simp only [List.set_cons_zero, List.length_cons, WordsOK_cons, wordsVal, pow_zero]
      refine ⟨trivial, ⟨hc, hb.2⟩, by omega⟩
    | succ i =>
      obtain ⟨i1, i2, i3⟩ := ih i c (by simpa using hi) hb.2 (wordsVal_tail_lt hv) hc
      simp only [List.set_cons_succ, List.length_cons, i1, WordsOK_cons, wordsVal, i3, pow_succ]
      refine ⟨trivial, ⟨hb.1, i2⟩, ?_⟩
      have e : 4294967296 ^ i * 4294967296 * c = 4294967296 * (4294967296 ^ i * c) := by ring
      rw [e]
      omega

theorem AddSmall_cons_lt {w a : Nat} (ws : List Nat) (h : w + a < 4294967296) :
    AddSmall (w :: ws) a = ((w + a) :: ws, 0) := by
  unfold AddSmall; simp [h]

theorem AddSmall_cons_carry {w a : Nat} (x : Nat) (xs : List Nat) (h : ¬ w + a < 4294967296) :
    AddSmall (w :: x :: xs) a
      = (((w + a) % 4294967296) :: (AddSmall (x :: xs) ((w + a) / 4294967296)).1,
          (AddSmall (x :: xs) ((w + a) / 4294967296)).2 + 1) := by
  conv => lhs; unfold AddSmall
  simp [h]

theorem wordsVal_cons (w : Nat) (ws : List Nat) :
    wordsVal (w :: ws) = w + 4294967296 * wordsVal ws := rfl

theorem AddSmall_spec : ∀ (b : List Nat) (a : Nat), WordsOK b →
    wordsVal b + a < 4294967296 ^ b.length →
    (AddSmall b a).1.length = b.length ∧ WordsOK (AddSmall b a).1 ∧
      wordsVal (AddSmall b a).1 = wordsVal b + a ∧
      wordsVal (AddSmall b a).1 / 4294967296 ^ ((AddSmall b a).2 + 1)
        = wordsVal b / 4294967296 ^ ((AddSmall b a).2 + 1) := by
  intro b
  induction b with
  | nil =>
    intro a _ h
    simp only [wordsVal, List.length_nil, pow_zero] at h
    have : a = 0 := by omega
    subst this
    simp [AddSmall, WordsOK, wordsVal]
  | cons w ws ih =>
    intro a hb h
    rw [WordsOK_cons] at hb
    by_cases hlt : w + a < 4294967296
    · rw [AddSmall_cons_lt ws hlt]
      simp only [List.length_cons, WordsOK_cons, wordsVal, zero_add, pow_one]
      refine ⟨trivial, ⟨hlt, hb.2⟩, by omega, by omega⟩
    · cases ws with
      | nil =>
        simp only [wordsVal, List.length_cons, List.length_nil, zero_add, pow_one] at h
        omega
      | cons x xs =>
        have hq : wordsVal (x :: xs) + (w + a) / 4294967296
            < 4294967296 ^ (x :: xs).length := by
          rw [List.length_cons, pow_succ, wordsVal_cons w] at h
          apply Nat.lt_of_mul_lt_mul_left (a := 4294967296)
          rw [Nat.mul_comm 4294967296 (4294967296 ^ (x :: xs).length)]
          omega
        obtain ⟨i1, i2, i3, i4⟩ := ih ((w + a) / 4294967296) hb.2 hq
        rw [AddSmall_cons_carry x xs hlt]
        refine ⟨by simp only [List.length_cons] at i1 ⊢; omega, ?_, ?_, ?_⟩
        · rw [WordsOK_cons]
          exact ⟨Nat.mod_lt _ (by norm_num), i2⟩
        · rw [wordsVal_cons, i3, wordsVal_cons w]
          omega
        · have e1 : wordsVal ((w + a) % 4294967296 ::
              (AddSmall (x :: xs) ((w + a) / 4294967296)).1) / 4294967296
              = wordsVal (AddSmall (x :: xs) ((w + a) / 4294967296)).1 := by
            rw [wordsVal_cons]; omega
          have e2 : wordsVal (w :: x :: xs) / 4294967296 = wordsVal (x :: xs) := by
            rw [wordsVal_cons w]; omega
          show _ / 4294967296 ^ ((AddSmall (x :: xs) ((w + a) / 4294967296)).2 + 1 + 1) =
            _ / 4294967296 ^ ((AddSmall (x :: xs) ((w + a) / 4294967296)).2 + 1 + 1)
          rw [pow_succ, Nat.mul_comm, ← Nat.div_div_eq_div_mul, ← Nat.div_div_eq_div_mul,
            e1, e2]
          exact i4

theorem divRadix_spec : ∀ (k : Nat) (b : List Nat), k ≤ b.length → WordsOK b →
    wordsVal b < 4294967296 ^ k →
    (divRadix k b).1.length = b.length ∧ WordsOK (divRadix k b).1 ∧
      wordsVal (divRadix k b).1 = wordsVal b / 27 ∧ (divRadix k b).2 = wordsVal b % 27 := by
  intro k
  induction k with
  | zero =>
    intro b _ hb hv
    simp only [pow_zero] at hv
    simp only [divRadix]
    refine ⟨trivial, hb, by omega, by omega⟩
  | succ k ih =>
    intro b hk hb hv
    match b, hk, hb, hv with
    | w :: ws, hk, hb, hv =>
      rw [WordsOK_cons] at hb
      have hw := hb.1
      obtain ⟨i1, i2, i3, i4⟩ := ih ws (by simpa using hk) hb.2 (wordsVal_tail_lt hv)
      have hr : (divRadix k ws).2 < 27 := by rw [i4]; exact Nat.mod_lt _ (by norm_num)
      have hv64 : ((divRadix k ws).2 <<< 32 % 18446744073709551616 ||| w)
          = 4294967296 * (divRadix k ws).2 + w := by
        rw [Nat.shiftLeft_eq]
        have e : (divRadix k ws).2 * 2 ^ 32 % 18446744073709551616
            = 2 ^ 32 * (divRadix k ws).2 := by omega
        rw [e, ← Nat.mul_add_lt_is_or (by omega)]
      simp only [divRadix, hv64, List.length_cons, i1, WordsOK_cons, tryteRadix, wordsVal, i3]
      refine ⟨trivial, ⟨by omega, i2⟩, by omega, by omega⟩

theorem wordsVal_lt_of_top_zero : ∀ (b : List Nat) (k : Nat), WordsOK b →
    wordsVal b < 4294967296 ^ (k + 1) → b.getD k 0 = 0 → wordsVal b < 4294967296 ^ k := by
  intro b
  induction b with
  | nil => intro k _ _ _; simp [wordsVal]
  | cons w ws ih =>
    intro k hb hv h0
    rw [WordsOK_cons] at hb
    cases k with
    | zero =>
      simp only [List.getD_cons_zero] at h0
      subst h0
      simp only [wordsVal, zero_add, pow_one, pow_zero] at hv ⊢
      omega
    | succ k =>
      simp only [List.getD_cons_succ] at h0
      exact wordsVal_cons_lt hb.1 (ih k hb.2 (wordsVal_tail_lt hv) h0)

/-! ## The encoder loop -/

theorem div_pow_mono {x y i j : Nat} (h : x / 4294967296 ^ i = y / 4294967296 ^ i)
    (hij : i ≤ j) : x / 4294967296 ^ j = y / 4294967296 ^ j := by
  obtain ⟨d, rfl⟩ := Nat.exists_eq_add_of_le hij
  rw [pow_add, ← Nat.div_div_eq_div_mul, ← Nat.div_div_eq_div_mul, h]

theorem AddSmall_index_lt : ∀ (b : List Nat) (a : Nat), WordsOK b →
    wordsVal b + a < 4294967296 ^ b.length → b ≠ [] → (AddSmall b a).2 < b.length := by
  intro b
  induction b with
  | nil => intro a _ _ h; exact absurd rfl h
  | cons w ws ih =>
    intro a hb h _
    rw [WordsOK_cons] at hb
    by_cases hlt : w + a < 4294967296
    · rw [AddSmall_cons_lt ws hlt]; simp
    · cases ws with
      | nil =>
        simp only [wordsVal, List.length_cons, List.length_nil, zero_add, pow_one] at h
        omega
      | cons x xs =>
        have hq : wordsVal (x :: xs) + (w + a) / 4294967296
            < 4294967296 ^ (x :: xs).length := by
          rw [List.length_cons, pow_succ, wordsVal_cons w] at h
          apply Nat.lt_of_mul_lt_mul_left (a := 4294967296)
          rw [Nat.mul_comm 4294967296 (4294967296 ^ (x :: xs).length)]
          omega
        rw [AddSmall_cons_carry x xs hlt]
        have := ih ((w + a) / 4294967296) hb.2 hq (by simp)
        simp only [List.length_cons] at this ⊢
        omega

theorem AddSmall_bound {b : List Nat} {a : Nat} (nz : Nat) (hb : WordsOK b)
    (h : wordsVal b + a < 4294967296 ^ b.length) (hnz : wordsVal b < 4294967296 ^ (nz + 1)) :
    wordsVal (AddSmall b a).1
      < 4294967296 ^ ((if (AddSmall b a).2 > nz then (AddSmall b a).2 else nz) + 1) := by
  obtain ⟨_, _, _, i4⟩ := AddSmall_spec b a hb h
  have hpos : ∀ k : Nat, 0 < 4294967296 ^ k := fun k => Nat.pow_pos (by norm_num)
  have key : ∀ j, (AddSmall b a).2 + 1 ≤ j → nz + 1 ≤ j →
      wordsVal (AddSmall b a).1 < 4294967296 ^ j := by
    intro j h1 h2
    have e := div_pow_mono i4 h1
    have hz : wordsVal b / 4294967296 ^ j = 0 :=
      Nat.div_eq_of_lt (lt_of_lt_of_le hnz (Nat.pow_le_pow_right (by norm_num) h2))
    rw [hz] at e
    by_contra hcon
    have := Nat.div_pos (not_lt.mp hcon) (hpos j)
    omega
  by_cases hc : (AddSmall b a).2 > nz
  · rw [if_pos hc]; exact key _ le_rfl (by omega)
  · rw [if_neg hc]; exact key _ (by omega) le_rfl

theorem encStep_spec {st : List Nat × Nat} {n : Nat} (v : Int) (h : EncInv st n)
    (hb : 27 * n + uint32 (int8 (v + halfTryte)) < 4294967296 ^ IntLength) :
    EncInv (encStep st v) (27 * n + uint32 (int8 (v + halfTryte))) := by
  obtain ⟨hl, hw, hnz, hv, hlt⟩ := h
  simp only [IntLength] at hl hnz hb
  obtain ⟨m1, m2, m3, m4, m5⟩ :=
    mulRadix_spec (st.2 + 1) st.1 0 (by omega) hw (by rw [hv]; exact hlt) (by norm_num)
  rw [hv] at m4
  have hst1 : ∃ st1 : List Nat × Nat,
      (if (mulRadix (st.2 + 1) st.1 0).2 > 0 ∧ st.2 < IntLength - 1
        then ((mulRadix (st.2 + 1) st.1 0).1.set (st.2 + 1) (mulRadix (st.2 + 1) st.1 0).2,
          st.2 + 1)
        else ((mulRadix (st.2 + 1) st.1 0).1, st.2)) = st1 ∧
      st1.1.length = 12 ∧ WordsOK st1.1 ∧ st1.2 < 12 ∧ wordsVal st1.1 = 27 * n ∧
      wordsVal st1.1 < 4294967296 ^ (st1.2 + 1) := by
    by_cases hc : (mulRadix (st.2 + 1) st.1 0).2 > 0 ∧ st.2 < IntLength - 1
    · rw [if_pos hc]
      simp only [IntLength] at hc
      obtain ⟨s1, s2, s3⟩ := wordsVal_set (mulRadix (st.2 + 1) st.1 0).1 (st.2 + 1)
        (mulRadix (st.2 + 1) st.1 0).2 (by omega) m2 m3 m5
      refine ⟨_, rfl, by simp only [s1, m1, hl], s2, by simp only; omega, ?_, ?_⟩
      · simp only [s3]; omega
      · simp only [s3]
        have : 4294967296 ^ (st.2 + 1) * ((mulRadix (st.2 + 1) st.1 0).2 + 1)
            ≤ 4294967296 ^ (st.2 + 1) * 4294967296 := Nat.mul_le_mul_left _ m5
        rw [pow_succ _ (st.2 + 1)]
        rw [Nat.mul_add] at this
        omega
    · rw [if_neg hc]
      simp only [IntLength] at hc
      refine ⟨_, rfl, by simp only [m1, hl], m2, hnz, ?_, m3⟩
      by_cases h0 : (mulRadix (st.2 + 1) st.1 0).2 = 0
      · rw [h0] at m4; simp only; omega
      · exfalso
        have h11 : st.2 = 11 := by omega
        rw [h11] at m4
        have : 4294967296 ^ (11 + 1) * 1
            ≤ 4294967296 ^ (11 + 1) * (mulRadix (11 + 1) st.1 0).2 :=
          Nat.mul_le_mul_left _ (by rw [h11] at h0; omega)
        omega
  obtain ⟨st1, e, t1, t2, t3, t4, t5⟩ := hst1
  have ha := AddSmall_spec st1.1 (uint32 (int8 (v + halfTryte))) t2
    (by rw [t1, t4]; exact hb)
  obtain ⟨a1, a2, a3, _⟩ := ha
  have hbd := AddSmall_bound st1.2 t2 (by rw [t1, t4]; exact hb) t5
  have hidx := AddSmall_index_lt st1.1 (uint32 (int8 (v + halfTryte))) t2
    (by rw [t1, t4]; exact hb) (by intro hnil; rw [hnil] at t1; simp at t1)
  unfold encStep
  simp only [e]
  refine ⟨by rw [a1, t1]; rfl, a2, ?_, by rw [a3, t4], ?_⟩
  · simp only [IntLength]
    split <;> omega
  · rw [← t4, ← a3]; exact hbd

theorem wordsVal_halfThree : wordsVal halfThree = halfThreeVal := by
  decide

theorem wordsVal_trit243 : wordsVal trit243 = 3 ^ 242 := by
  decide

theorem wordsVal_negHalfThree : wordsVal negHalfThree = 4294967296 ^ 12 - halfThreeVal := by
  decide

theorem trit_eq : 3 ^ 242 = 2 * halfThreeVal + 1 := by
  decide

theorem halfThreeVal_lt : halfThreeVal < 2147483648 * 4294967296 ^ 11 := by
  decide

theorem trit_gt : 2147483648 * 4294967296 ^ 11 < 3 ^ 242 := by
  decide

theorem trit_lt : 3 ^ 242 < 4294967296 ^ 12 := by
  decide

set_option exponentiation.threshold 512 in
theorem two_pow_383 : (2 : Nat) ^ 383 = 2147483648 * 4294967296 ^ 11 := by
  norm_num

set_option exponentiation.threshold 512 in
theorem two_pow_384 : (2 : Nat) ^ 384 = 4294967296 ^ 12 := by
  norm_num

set_option exponentiation.threshold 512 in
theorem two_pow_384_int : (2 : Int) ^ 384 = 4294967296 ^ 12 := by
  norm_num

theorem unbal_append (l1 l2 : List Int) (t : Nat) :
    unbal (l1 ++ l2) t = unbal l1 (unbal l2 t) := by
  induction l1 with
  | nil => rfl
  | cons v vs ih => simp [unbal, ih]

theorem digit_eq {v : Int} (h1 : -13 ≤ v) (h2 : v ≤ 13) :
    uint32 (int8 (v + halfTryte)) = (v + 13).toNat := by
  unfold uint32 int8 halfTryte; omega

theorem TrytesOK_cons {v : Int} {vs : List Int} :
    TrytesOK (v :: vs) ↔ (-13 ≤ v ∧ v ≤ 13) ∧ TrytesOK vs := by
  simp [TrytesOK]

theorem encLoop_spec : ∀ (ds : List Int) (st : List Nat × Nat) (n j : Nat),
    EncInv st n → n + 1 ≤ 9 * 27 ^ j → j + ds.length ≤ 80 → TrytesOK ds →
    EncInv (ds.foldl encStep st) (unbal ds.reverse n) ∧
      unbal ds.reverse n + 1 ≤ 9 * 27 ^ (j + ds.length) := by
  intro ds
  induction ds with
  | nil => intro st n j h hn _ _; exact ⟨h, hn⟩
  | cons d ds ih =>
    intro st n j h hn hj hd
    rw [TrytesOK_cons] at hd
    simp only [List.length_cons] at hj
    have ha := digit_eq hd.1.1 hd.1.2
    have hpow : 27 ^ (j + 1) ≤ 27 ^ 80 := Nat.pow_le_pow_right (by norm_num) (by omega)
    have hbig : 9 * 27 ^ 80 < 4294967296 ^ 12 := by norm_num
    have hstep : 27 * n + (d + 13).toNat + 1 ≤ 9 * 27 ^ (j + 1) := by
      rw [pow_succ]; omega
    have h1 := encStep_spec d h (by rw [ha]; simp only [IntLength]; omega)
    rw [ha] at h1
    obtain ⟨r1, r2⟩ := ih (encStep st d) (27 * n + (d + 13).toNat) (j + 1) h1 hstep
      (by omega) hd.2
    simp only [List.foldl_cons, List.reverse_cons, unbal_append, List.length_cons]
    have e : unbal [d] n = 27 * n + (d + 13).toNat := by simp [unbal]; omega
    rw [e]
    refine ⟨r1, ?_⟩
    have : j + 1 + ds.length = j + (ds.length + 1) := by omega
    rw [← this]; exact r2

theorem encLoop_eq_foldl : ∀ (ds : List Int) (st : List Nat × Nat) (n j : Nat),
    EncInv st n → n + 1 ≤ 9 * 27 ^ j → j + ds.length ≤ 80 → TrytesOK ds →
    encLoop ds st = some (ds.foldl encStep st) := by
  intro ds
  induction ds with
  | nil => intro st n j _ _ _ _; rfl
  | cons d ds ih =>
    intro st n j h hn hj hd
    rw [TrytesOK_cons] at hd
    simp only [List.length_cons] at hj
    have ha := digit_eq hd.1.1 hd.1.2
    have hpow : 27 ^ (j + 1) ≤ 27 ^ 80 := Nat.pow_le_pow_right (by norm_num) (by omega)
    have hbig : 9 * 27 ^ 80 < 4294967296 ^ 12 := by norm_num
    have hstep : 27 * n + (d + 13).toNat + 1 ≤ 9 * 27 ^ (j + 1) := by
      rw [pow_succ]; omega
    have h1 := encStep_spec d h (by rw [ha]; simp only [IntLength]; omega)
    rw [ha] at h1
    have hin : st.2 < st.1.length := by rw [h.1]; exact h.2.2.1
    unfold encLoop
    rw [if_pos hin, List.foldl_cons]
    exact ih (encStep st d) (27 * n + (d + 13).toNat) (j + 1) h1 hstep (by omega) hd.2

theorem tryteZeroLastTrit_spec {v : Int} (h1 : -13 ≤ v) (h2 : v ≤ 13) :
    -4 ≤ tryteZeroLastTrit v ∧ tryteZeroLastTrit v ≤ 4 ∧
      (tryteZeroLastTrit v = v ∨ tryteZeroLastTrit v = v - 9 ∨ tryteZeroLastTrit v = v + 9) := by
  unfold tryteZeroLastTrit int8
  split
  · omega
  · split <;> omega

theorem tryteZeroLastTrit_id {v : Int} (h1 : -4 ≤ v) (h2 : v ≤ 4) : tryteZeroLastTrit v = v := by
  unfold tryteZeroLastTrit
  rw [if_neg (by omega), if_neg (by omega)]

theorem TrytesOK_getD {vs : List Int} (h : TrytesOK vs) (i : Nat) :
    -13 ≤ vs.getD i 0 ∧ vs.getD i 0 ≤ 13 := by
  induction vs generalizing i with
  | nil => simp
  | cons v vs ih =>
    rw [TrytesOK_cons] at h
    cases i with
    | zero => simpa using h.1
    | succ i => simpa using ih h.2 i

theorem TrytesOK_take {vs : List Int} (h : TrytesOK vs) (k : Nat) : TrytesOK (vs.take k) :=
  fun v hv => h v (List.mem_of_mem_take hv)

theorem TrytesOK_reverse {vs : List Int} (h : TrytesOK vs) : TrytesOK vs.reverse :=
  fun v hv => h v (List.mem_reverse.mp hv)

theorem encInit_spec {vs : List Int} (h : TrytesOK vs) :
    EncInv (encInit vs) (tryteZeroLastTrit (vs.getD 80 0) + 4).toNat ∧
      (tryteZeroLastTrit (vs.getD 80 0) + 4).toNat + 1 ≤ 9 * 27 ^ 0 := by
  obtain ⟨g1, g2⟩ := TrytesOK_getD h 80
  obtain ⟨z1, z2, _⟩ := tryteZeroLastTrit_spec g1 g2
  have e : uint32 (int8 (tryteZeroLastTrit (vs.getD 80 0) + 4))
      = (tryteZeroLastTrit (vs.getD 80 0) + 4).toNat := by
    unfold uint32 int8; omega
  refine ⟨?_, by omega⟩
  simp only [encInit, HashTrytesSize, IntLength, e, EncInv, List.replicate, List.set_cons_zero,
    List.length_cons, List.length_nil, wordsVal, WordsOK, List.mem_cons, List.mem_singleton]
  refine ⟨by norm_num, ?_, by norm_num, by omega, by omega⟩
  intro w hw
  have : w = (tryteZeroLastTrit (vs.getD 80 0) + 4).toNat ∨ w = 0 := by
    rcases hw with hw | hw
    · exact Or.inl hw
    · right
      simpa using hw
  omega

theorem encVal_lt {vs : List Int} (hl : vs.length = 81) (h : TrytesOK vs) :
    encVal vs < 3 ^ 242 := by
  have hi := encInit_spec h
  have ht : TrytesOK (vs.take 80).reverse := TrytesOK_reverse (TrytesOK_take h 80)
  have hlen : (vs.take 80).reverse.length = 80 := by simp [hl]
  obtain ⟨_, r2⟩ := encLoop_spec (vs.take 80).reverse (encInit vs) _ 0 hi.1 hi.2
    (by omega) ht
  rw [List.reverse_reverse, hlen] at r2
  have e : 9 * 27 ^ (0 + 80) = 3 ^ 242 := by norm_num
  rw [e] at r2
  unfold encVal
  omega

theorem tryteValuesToBytes_eq {vs : List Int} (hl : vs.length = 81) (h : TrytesOK vs) :
    tryteValuesToBytes vs = some (Reverse (bytesOfWords
      (natToWords 12 (encVal vs + (4294967296 ^ 12 - halfThreeVal))))) := by
  have hi := encInit_spec h
  have ht : TrytesOK (vs.take 80).reverse := TrytesOK_reverse (TrytesOK_take h 80)
  have hlen : (vs.take 80).reverse.length = 80 := by simp [hl]
  obtain ⟨r1, _⟩ := encLoop_spec (vs.take 80).reverse (encInit vs) _ 0 hi.1 hi.2
    (by omega) ht
  have hloop := encLoop_eq_foldl (vs.take 80).reverse (encInit vs) _ 0 hi.1 hi.2
    (by omega) ht
  rw [List.reverse_reverse] at r1
  obtain ⟨e1, _, _, e4, _⟩ := r1
  have hH : halfThreeVal % 4294967296 ^ 12 = halfThreeVal :=
    Nat.mod_eq_of_lt (by have := halfThreeVal_lt; omega)
  unfold tryteValuesToBytes
  rw [if_neg (by simp [hl, HashTrytesSize])]
  simp only [HashTrytesSize, Nat.add_one_sub_one, hloop, Option.map_some', MustSub, e1, e4,
    IntLength, wordsVal_halfThree, hH]
  rfl

/-! ## The decoder loop -/

theorem rem_digit {r : Nat} (h : r < 27) : int8 (int8 (r : Int) - halfTryte) = (r : Int) - 13 := by
  unfold int8 halfTryte; omega

theorem decLoop_spec : ∀ (n : Nat) (b : List Nat) (nz : Nat), b.length = 12 → WordsOK b →
    nz < 12 → wordsVal b < 4294967296 ^ (nz + 1) →
    (decLoop n b nz).1 = digits27 n (wordsVal b) ∧ (decLoop n b nz).2.length = 12 ∧
      WordsOK (decLoop n b nz).2 ∧ wordsVal (decLoop n b nz).2 = wordsVal b / 27 ^ n := by
  intro n
  induction n with
  | zero =>
    intro b nz hl hw _ _
    simp [decLoop, digits27, hl, hw]
  | succ n ih =>
    intro b nz hl hw hnz hv
    obtain ⟨d1, d2, d3, d4⟩ := divRadix_spec (nz + 1) b (by omega) hw hv
    have hq : wordsVal (divRadix (nz + 1) b).1 < 4294967296 ^ (nz + 1) := by
      rw [d3]; exact lt_of_le_of_lt (Nat.div_le_self _ _) hv
    have hnz2 : ∃ nz2, (if nz > 0 ∧ (divRadix (nz + 1) b).1.getD nz 0 = 0 then nz - 1 else nz)
        = nz2 ∧ nz2 < 12 ∧ wordsVal (divRadix (nz + 1) b).1 < 4294967296 ^ (nz2 + 1) := by
      by_cases hc : nz > 0 ∧ (divRadix (nz + 1) b).1.getD nz 0 = 0
      · rw [if_pos hc]
        refine ⟨_, rfl, by omega, ?_⟩
        have := wordsVal_lt_of_top_zero _ nz d2 hq hc.2
        have e : nz - 1 + 1 = nz := by omega
        rw [e]; exact this
      · rw [if_neg hc]
        exact ⟨_, rfl, hnz, hq⟩
    obtain ⟨nz2, e, k1, k2⟩ := hnz2
    obtain ⟨r1, r2, r3, r4⟩ := ih (divRadix (nz + 1) b).1 nz2 (by rw [d1, hl]) d2 k1 k2
    have hr : wordsVal b % 27 < 27 := Nat.mod_lt _ (by norm_num)
    simp only [decLoop, e, r1, r2, r3, r4, digits27, d3, d4, rem_digit hr]
    refine ⟨trivial, trivial, trivial, ?_⟩
    rw [Nat.div_div_eq_div_mul, pow_succ, Nat.mul_comm]

theorem getD_zero_of_lt {b : List Nat} (hw : WordsOK b) (h : wordsVal b < 4294967296) :
    b.getD 0 0 = wordsVal b := by
  cases b with
  | nil => rfl
  | cons w ws =>
    rw [WordsOK_cons] at hw
    simp only [wordsVal, List.getD_cons_zero] at h ⊢
    omega

theorem top_digit {t : Nat} (h : t ≤ 8) :
    tryteZeroLastTrit (int8 (int8 (t : Int) - halfTryte)) = (t : Int) - 4 := by
  unfold tryteZeroLastTrit int8 halfTryte
  split
  · omega
  · split <;> omega

theorem getLastD_spec : ∀ (b : List Nat), WordsOK b → b ≠ [] →
    ∃ lo, lo < 4294967296 ^ (b.length - 1) ∧
      wordsVal b = lo + 4294967296 ^ (b.length - 1) * b.getLastD 0 := by
  intro b
  induction b with
  | nil => intro _ h; exact absurd rfl h
  | cons w ws ih =>
    intro hw _
    rw [WordsOK_cons] at hw
    cases ws with
    | nil => exact ⟨0, by simp, by simp [wordsVal]⟩
    | cons x xs =>
      obtain ⟨lo, h1, h2⟩ := ih hw.2 (by simp)
      refine ⟨w + 4294967296 * lo, ?_, ?_⟩
      · simp only [List.length_cons, Nat.add_one_sub_one] at h1 ⊢
        rw [pow_succ]
        have : 4294967296 * (lo + 1) ≤ 4294967296 * 4294967296 ^ xs.length :=
          Nat.mul_le_mul_left _ h1
        rw [Nat.mul_comm (4294967296 ^ xs.length)]
        omega
      · rw [wordsVal_cons, h2]
        have e : (w :: x :: xs).getLastD 0 = (x :: xs).getLastD 0 := by simp
        rw [e]
        simp only [List.length_cons, Nat.add_one_sub_one]
        rw [pow_succ]
        ring

theorem IsNegative_iff {b : List Nat} (hl : b.length = 12) (hw : WordsOK b) :
    IsNegative b = true ↔ 2147483648 * 4294967296 ^ 11 ≤ wordsVal b := by
  obtain ⟨lo, h1, h2⟩ := getLastD_spec b hw (by intro h; rw [h] at hl; simp at hl)
  rw [hl] at h1 h2
  simp only [Nat.reduceSub] at h1 h2
  unfold IsNegative
  rw [decide_eq_true_iff, h2]
  omega

/-! ## Canonicalization of the big integer -/

theorem wordsInt_eq {b : List Nat} (hl : b.length = 12) (hw : WordsOK b) :
    wordsInt b = if 2147483648 * 4294967296 ^ 11 ≤ wordsVal b
      then (wordsVal b : Int) - 4294967296 ^ 12 else (wordsVal b : Int) := by
  unfold wordsInt
  rw [hl]
  by_cases h : 2147483648 * 4294967296 ^ 11 ≤ wordsVal b
  · rw [if_pos ((IsNegative_iff hl hw).mpr h), if_pos h]
  · have hn : ¬ (IsNegative b = true) := fun hc => h ((IsNegative_iff hl hw).mp hc)
    rw [if_neg hn, if_neg h]

theorem bytesInt_eq (bs : List Nat) :
    bytesInt bs = if bytesValBE bs < 2147483648 * 4294967296 ^ 11
      then (bytesValBE bs : Int) else (bytesValBE bs : Int) - 4294967296 ^ 12 := by
  unfold bytesInt
  rw [two_pow_383]
  rw [two_pow_384_int]

theorem wordsInt_halfThree : wordsInt halfThree = (halfThreeVal : Int) := by
  have hw : WordsOK halfThree := by unfold WordsOK halfThree; decide
  rw [wordsInt_eq (b := halfThree) rfl hw, wordsVal_halfThree]
  have := halfThreeVal_lt
  rw [if_neg (by omega)]

theorem wordsInt_negHalfThree : wordsInt negHalfThree = -(halfThreeVal : Int) := by
  have hw : WordsOK negHalfThree := by unfold WordsOK negHalfThree; decide
  rw [wordsInt_eq (b := negHalfThree) rfl hw, wordsVal_negHalfThree]
  have := halfThreeVal_lt
  rw [if_pos (by omega)]
  omega

theorem MustCmp_lt (a b : List Nat) : MustCmp a b < 0 ↔ wordsInt a < wordsInt b := by
  unfold MustCmp
  split
  · simp [*]
  · split <;> simp [*]

theorem MustCmp_gt (a b : List Nat) : MustCmp a b > 0 ↔ wordsInt b < wordsInt a := by
  unfold MustCmp
  split
  · constructor
    · intro h; omega
    · intro h; omega
  · split <;> simp [*]

theorem bigintZeroLastTrit_spec {b : List Nat} (hl : b.length = 12) (hw : WordsOK b) :
    (bigintZeroLastTrit b).length = 12 ∧ WordsOK (bigintZeroLastTrit b) ∧
      wordsInt (bigintZeroLastTrit b) = canonInt (wordsInt b) ∧
      -(halfThreeVal : Int) ≤ canonInt (wordsInt b) ∧
      canonInt (wordsInt b) ≤ (halfThreeVal : Int) := by
  have hb := wordsVal_lt hw
  rw [hl] at hb
  have t1 := trit_eq
  have t2 := halfThreeVal_lt
  have hx := wordsInt_eq hl hw
  unfold bigintZeroLastTrit
  by_cases hneg : IsNegative b = true
  · have hv := (IsNegative_iff hl hw).mp hneg
    rw [if_pos hv] at hx
    rw [if_pos hneg]
    by_cases hc : MustCmp b negHalfThree < 0
    · rw [if_pos hc]
      rw [MustCmp_lt, wordsInt_negHalfThree] at hc
      have hr : WordsOK (MustAdd b trit243) := WordsOK_natToWords _ _
      have hrl : (MustAdd b trit243).length = 12 := by
        unfold MustAdd; rw [length_natToWords, hl]
      have hrv : wordsVal (MustAdd b trit243)
          = (wordsVal b + 3 ^ 242) % 4294967296 ^ 12 := by
        unfold MustAdd; rw [wordsVal_natToWords, hl, wordsVal_trit243]
      refine ⟨hrl, hr, ?_, ?_, ?_⟩
      · rw [wordsInt_eq hrl hr, hrv]
        unfold canonInt
        rw [if_neg (by omega), if_pos hc]
        split <;> omega
      · unfold canonInt
        rw [if_neg (by omega), if_pos hc]; omega
      · unfold canonInt
        rw [if_neg (by omega), if_pos hc]; omega
    · rw [if_neg hc]
      rw [MustCmp_lt, wordsInt_negHalfThree] at hc
      refine ⟨hl, hw, ?_, ?_, ?_⟩ <;>
      · unfold canonInt
        rw [if_neg (by omega), if_neg hc]
        try omega
  · rw [if_neg hneg]
    have hv : ¬ 2147483648 * 4294967296 ^ 11 ≤ wordsVal b :=
      fun hc => hneg ((IsNegative_iff hl hw).mpr hc)
    rw [if_neg hv] at hx
    by_cases hc : MustCmp b halfThree > 0
    · rw [if_pos hc]
      rw [MustCmp_gt, wordsInt_halfThree] at hc
      have hr : WordsOK (MustSub b trit243) := WordsOK_natToWords _ _
      have hrl : (MustSub b trit243).length = 12 := by
        unfold MustSub; rw [length_natToWords, hl]
      have hT : 3 ^ 242 % 4294967296 ^ 12 = 3 ^ 242 := Nat.mod_eq_of_lt trit_lt
      have hrv : wordsVal (MustSub b trit243)
          = (wordsVal b + (4294967296 ^ 12 - 3 ^ 242)) % 4294967296 ^ 12 := by
        unfold MustSub; rw [wordsVal_natToWords, hl, wordsVal_trit243, hT]
      refine ⟨hrl, hr, ?_, ?_, ?_⟩
      · rw [wordsInt_eq hrl hr, hrv]
        unfold canonInt
        rw [if_pos (by omega)]
        split <;> omega
      · unfold canonInt
        rw [if_pos (by omega)]; omega
      · unfold canonInt
        rw [if_pos (by omega)]; omega
    · rw [if_neg hc]
      rw [MustCmp_gt, wordsInt_halfThree] at hc
      refine ⟨hl, hw, ?_, ?_, ?_⟩ <;>
      · unfold canonInt
        rw [if_neg (by omega), if_neg (by omega)]
        try omega

/-! ## The decoder on bytes -/

theorem wordsIn_spec {bytes : List Nat} (hl : bytes.length = 48) (hb : BytesOK bytes) :
    (wordsOfBytes (Reverse bytes)).take IntLength = wordsOfBytes bytes.reverse ∧
      (wordsOfBytes bytes.reverse).length = 12 ∧ WordsOK (wordsOfBytes bytes.reverse) ∧
      wordsVal (wordsOfBytes bytes.reverse) = bytesValBE bytes ∧
      wordsInt (wordsOfBytes bytes.reverse) = bytesInt bytes ∧
      bytesOfWords (wordsOfBytes bytes.reverse) = bytes.reverse := by
  obtain ⟨w1, w2, w3, w4⟩ := @wordsOfBytes_spec 12 bytes.reverse
    (by simp [hl]) (BytesOK_reverse hb)
  rw [bytesValLE_reverse] at w3
  refine ⟨?_, w1, w2, w3, ?_, w4⟩
  · unfold Reverse IntLength
    rw [← w1, List.take_length]
  · rw [wordsInt_eq w1 w2, bytesInt_eq, w3]
    split <;> split <;> omega

theorem decInit_spec {bytes : List Nat} (hl : bytes.length = 48) (hb : BytesOK bytes) :
    decInit bytes = natToWords 12 (decVal bytes) ∧ decVal bytes < 3 ^ 242 := by
  obtain ⟨w0, w1, w2, _, w4, _⟩ := wordsIn_spec hl hb
  obtain ⟨c1, c2, c3, c4, c5⟩ := bigintZeroLastTrit_spec w1 w2
  rw [w4] at c3 c4 c5
  have t1 := trit_eq
  have t2 := halfThreeVal_lt
  have hv := wordsVal_lt c2
  rw [c1] at hv
  have hx := wordsInt_eq c1 c2
  rw [c3] at hx
  constructor
  · unfold decInit
    rw [w0]
    unfold MustAdd
    rw [c1, wordsVal_halfThree]
    apply natToWords_congr
    unfold decVal
    split at hx <;> omega
  · unfold decVal
    omega

theorem div_top_le {u : Nat} (h : u < 3 ^ 242) : u / 27 ^ 80 ≤ 8 := by
  have e : 3 ^ 242 = 9 * 27 ^ 80 := by norm_num
  rw [e] at h
  have := Nat.div_lt_of_lt_mul (m := u) (n := 27 ^ 80) (k := 9) (by rw [Nat.mul_comm]; exact h)
  omega

theorem bytesToTryteValues_eq {bytes : List Nat} (hl : bytes.length = 48) (hb : BytesOK bytes) :
    bytesToTryteValues bytes
      = some (digits27 80 (decVal bytes) ++ [((decVal bytes / 27 ^ 80 : Nat) : Int) - 4]) := by
  obtain ⟨d1, d2⟩ := decInit_spec hl hb
  have hw : WordsOK (decInit bytes) := by rw [d1]; exact WordsOK_natToWords _ _
  have hlen : (decInit bytes).length = 12 := by rw [d1]; exact length_natToWords _ _
  have hval : wordsVal (decInit bytes) = decVal bytes := by
    rw [d1, wordsVal_natToWords]
    exact Nat.mod_eq_of_lt (lt_trans d2 trit_lt)
  have hlt := wordsVal_lt hw
  rw [hlen] at hlt
  obtain ⟨r1, _, r3, r4⟩ := decLoop_spec 80 (decInit bytes) 11 hlen hw (by norm_num) hlt
  rw [hval] at r1 r4
  have h8 := div_top_le d2
  have hg := getD_zero_of_lt r3 (by rw [r4]; omega)
  rw [r4] at hg
  unfold bytesToTryteValues
  rw [if_neg (by simp [hl, HashBytesSize])]
  simp only [HashTrytesSize, IntLength, Nat.add_one_sub_one, r1, hg, top_digit h8]

/-! ## Radix-27 digits -/

theorem length_digits27 (n u : Nat) : (digits27 n u).length = n := by
  induction n generalizing u with
  | zero => rfl
  | succ n ih => simp [digits27, ih]

theorem TrytesOK_digits27 (n u : Nat) : TrytesOK (digits27 n u) := by
  induction n generalizing u with
  | zero => simp [digits27, TrytesOK]
  | succ n ih =>
    simp only [digits27, TrytesOK_cons]
    exact ⟨by omega, ih _⟩

theorem unbal_digits27 (n u : Nat) : unbal (digits27 n u) (u / 27 ^ n) = u := by
  induction n generalizing u with
  | zero => simp [digits27, unbal]
  | succ n ih =>
    have e : u / 27 ^ (n + 1) = u / 27 / 27 ^ n := by
      rw [Nat.div_div_eq_div_mul, pow_succ, Nat.mul_comm]
    simp only [digits27, unbal, e, ih]
    omega

theorem digits27_unbal : ∀ (l : List Int) (t : Nat), TrytesOK l →
    digits27 l.length (unbal l t) = l ∧ unbal l t / 27 ^ l.length = t := by
  intro l
  induction l with
  | nil => intro t _; simp [digits27, unbal]
  | cons v vs ih =>
    intro t h
    rw [TrytesOK_cons] at h
    obtain ⟨i1, i2⟩ := ih t h.2
    have e1 : ((v + 13).toNat + 27 * unbal vs t) % 27 = (v + 13).toNat := by omega
    have e2 : ((v + 13).toNat + 27 * unbal vs t) / 27 = unbal vs t := by omega
    simp only [List.length_cons, digits27, unbal, e1, e2, i1]
    refine ⟨by congr 1; omega, ?_⟩
    have e3 : 27 ^ (vs.length + 1) = 27 * 27 ^ vs.length := by ring
    rw [e3, ← Nat.div_div_eq_div_mul, e2, i2]

theorem radixVal_append (l : List Int) (t : Int) :
    radixVal (l ++ [t]) = radixVal l + 27 ^ l.length * t := by
  induction l with
  | nil => simp [radixVal]
  | cons v vs ih =>
    have e : (v :: vs) ++ [t] = v :: (vs ++ [t]) := rfl
    rw [e, radixVal, radixVal, ih, List.length_cons, pow_succ]
    ring

theorem unbal_int : ∀ (l : List Int) (t : Nat), TrytesOK l →
    (unbal l t : Int)
      = radixVal l + radixVal (List.replicate l.length 13) + 27 ^ l.length * (t : Int) := by
  intro l
  induction l with
  | nil => intro t _; simp [unbal, radixVal]
  | cons v vs ih =>
    intro t h
    rw [TrytesOK_cons] at h
    have := ih t h.2
    simp only [unbal, radixVal, List.length_cons, List.replicate_succ, pow_succ]
    push_cast
    rw [this, Int.toNat_of_nonneg (by omega)]
    ring

theorem radixVal_replicate (n : Nat) : 2 * radixVal (List.replicate n 13) + 1 = 27 ^ n := by
  induction n with
  | zero => simp [radixVal]
  | succ n ih =>
    rw [List.replicate_succ, radixVal, pow_succ, ← ih]
    ring

theorem bias_eq : radixVal (List.replicate 80 13) + 27 ^ 80 * 4 = (halfThreeVal : Int) := by
  have h1 := radixVal_replicate 80
  have h2 : ((3 ^ 242 : Nat) : Int) = ((2 * halfThreeVal + 1 : Nat) : Int) := by rw [trit_eq]
  push_cast at h2
  omega

/-! ## Bytes of an unbalanced value -/

theorem encBytes_spec {u : Nat} (hu : u < 3 ^ 242) :
    (encBytes u).length = 48 ∧ BytesOK (encBytes u) ∧
      bytesInt (encBytes u) = (u : Int) - (halfThreeVal : Int) ∧
      decVal (encBytes u) = u := by
  have hw := WordsOK_natToWords 12 (u + (4294967296 ^ 12 - halfThreeVal))
  obtain ⟨b1, b2, b3, _⟩ := bytesOfWords_spec hw
  rw [length_natToWords] at b1
  have t1 := trit_eq
  have t2 := halfThreeVal_lt
  have hval : bytesValBE (encBytes u)
      = (u + (4294967296 ^ 12 - halfThreeVal)) % 4294967296 ^ 12 := by
    unfold encBytes Reverse
    rw [← bytesValLE_reverse, List.reverse_reverse, b3, wordsVal_natToWords]
  have hint : bytesInt (encBytes u) = (u : Int) - (halfThreeVal : Int) := by
    rw [bytesInt_eq, hval]
    split <;> omega
  refine ⟨?_, ?_, hint, ?_⟩
  · unfold encBytes Reverse
    rw [List.length_reverse, b1]
  · unfold encBytes Reverse
    exact BytesOK_reverse b2
  · unfold decVal canonInt
    rw [hint]
    split
    · omega
    · split <;> omega

theorem tryteValuesToBytes_encBytes {vs : List Int} (hl : vs.length = 81) (h : TrytesOK vs) :
    tryteValuesToBytes vs = some (encBytes (encVal vs)) :=
  tryteValuesToBytes_eq hl h

theorem KerlBytesZeroLastTrit_eq {bytes : List Nat} (hl : bytes.length = 48)
    (hb : BytesOK bytes) :
    KerlBytesZeroLastTrit bytes = some (encBytes (decVal bytes)) := by
  obtain ⟨w0, w1, w2, _, w4, _⟩ := wordsIn_spec hl hb
  obtain ⟨c1, c2, c3, c4, c5⟩ := bigintZeroLastTrit_spec w1 w2
  rw [w4] at c3 c4 c5
  have t1 := trit_eq
  have t2 := halfThreeVal_lt
  have hv := wordsVal_lt c2
  rw [c1] at hv
  have hx := wordsInt_eq c1 c2
  rw [c3] at hx
  have hr := natToWords_wordsVal c2
  rw [c1] at hr
  have hcong : natToWords 12 (wordsVal (bigintZeroLastTrit (wordsOfBytes bytes.reverse)))
      = natToWords 12 (decVal bytes + (4294967296 ^ 12 - halfThreeVal)) := by
    apply natToWords_congr
    unfold decVal
    split at hx <;> omega
  have hdrop : (Reverse bytes).drop HashBytesSize = [] := by
    apply List.drop_eq_nil_of_le
    simp [Reverse, hl, HashBytesSize]
  unfold KerlBytesZeroLastTrit
  rw [if_neg (by simp [hl, HashBytesSize])]
  simp only [hdrop, List.append_nil, w0]
  rw [← hr, hcong]
  rfl

theorem encBytes_decVal_of_canon {bytes : List Nat} (hl : bytes.length = 48)
    (hb : BytesOK bytes) (h1 : -(halfThreeVal : Int) ≤ bytesInt bytes)
    (h2 : bytesInt bytes ≤ (halfThreeVal : Int)) :
    encBytes (decVal bytes) = bytes := by
  obtain ⟨_, w1, w2, w3, w4, w5⟩ := wordsIn_spec hl hb
  have t1 := trit_eq
  have t2 := halfThreeVal_lt
  have hv := wordsVal_lt w2
  rw [w1] at hv
  have hx := wordsInt_eq w1 w2
  rw [w4] at hx
  have hr := natToWords_wordsVal w2
  rw [w1] at hr
  have hcong : natToWords 12 (decVal bytes + (4294967296 ^ 12 - halfThreeVal))
      = natToWords 12 (wordsVal (wordsOfBytes bytes.reverse)) := by
    apply natToWords_congr
    unfold decVal canonInt
    rw [if_neg (by omega), if_neg (by omega)]
    split at hx <;> omega
  unfold encBytes Reverse
  rw [hcong, hr, w5, List.reverse_reverse]

/-! ## Lookup tables -/

theorem letter_spec : ∀ c ∈ tryteValueToTyteLUT, runeLen c = 1 ∧ -13 ≤ tryteValueOfRune c ∧
    tryteValueOfRune c ≤ 13 ∧
    lutGet tryteValueToTyteLUT (int8 (tryteValueOfRune c - MinTryteValue)) = some c := by
  decide

theorem value_letter {v : Int} (h1 : -13 ≤ v) (h2 : v ≤ 13) :
    ∃ c, lutGet tryteValueToTyteLUT (int8 (v - MinTryteValue)) = some c ∧
      c ∈ tryteValueToTyteLUT ∧ tryteValueOfRune c = v := by
  interval_cases v <;> exact ⟨_, rfl, by decide, by decide⟩

theorem value_trits {v : Int} (h1 : -13 ≤ v) (h2 : v ≤ 13) :
    ∃ a b c, lutGet tryteValueToTritsLUT (int8 (v - MinTryteValue)) = some (a, b, c) ∧
      (-1 ≤ a ∧ a ≤ 1) ∧ (-1 ≤ b ∧ b ≤ 1) ∧ (-1 ≤ c ∧ c ≤ 1) ∧ a + 3 * b + 9 * c = v := by
  interval_cases v <;> exact ⟨_, _, _, rfl, by decide, by decide, by decide, by decide⟩

theorem trits_value {a b c : Int} (ha : -1 ≤ a ∧ a ≤ 1) (hb : -1 ≤ b ∧ b ≤ 1)
    (hc : -1 ≤ c ∧ c ≤ 1) :
    lutGet tryteValueToTritsLUT (int8 (a + 3 * b + 9 * c - MinTryteValue)) = some (a, b, c) := by
  obtain ⟨a', b', c', h, ha', hb', hc', e⟩ :=
    value_trits (v := a + 3 * b + 9 * c) (by omega) (by omega)
  have e1 : a' = a := by omega
  have e2 : b' = b := by omega
  have e3 : c' = c := by omega
  rw [h, e1, e2, e3]

theorem trit_sum {a b c : Int} (ha : -1 ≤ a ∧ a ≤ 1) (hb : -1 ≤ b ∧ b ≤ 1)
    (hc : -1 ≤ c ∧ c ≤ 1) :
    int8 (int8 (a + int8 (b * 3)) + int8 (c * 9)) = a + 3 * b + 9 * c := by
  unfold int8; omega

theorem AlphabetOK_cons {c : Char} {s : List Char} :
    AlphabetOK (c :: s) ↔ c ∈ tryteValueToTyteLUT ∧ AlphabetOK s := by
  simp [AlphabetOK]

theorem TritsOK_cons {t : Int} {ts : List Int} :
    TritsOK (t :: ts) ↔ (-1 ≤ t ∧ t ≤ 1) ∧ TritsOK ts := by
  simp [TritsOK]

theorem trytes_of_values : ∀ (vs : List Int), TrytesOK vs →
    ∃ s, tryteValuesToTrytes vs = some s ∧ AlphabetOK s ∧ strLen s = vs.length ∧
      trytesToTryteValues s = vs := by
  intro vs
  induction vs with
  | nil => intro _; exact ⟨[], rfl, by simp [AlphabetOK], rfl, rfl⟩
  | cons v vs ih =>
    intro h
    rw [TrytesOK_cons] at h
    obtain ⟨s, s1, s2, s3, s4⟩ := ih h.2
    obtain ⟨c, c1, c2, c3⟩ := value_letter h.1.1 h.1.2
    obtain ⟨l1, _, _, _⟩ := letter_spec c c2
    refine ⟨c :: s, ?_, AlphabetOK_cons.mpr ⟨c2, s2⟩, ?_, ?_⟩
    · simp only [tryteValuesToTrytes, c1, s1]
    · simp only [strLen, List.map_cons, List.sum_cons, l1, List.length_cons] at s3 ⊢
      omega
    · simp only [trytesToTryteValues, l1, c3, s4, Nat.sub_self, List.replicate_zero,
        List.nil_append]

theorem values_of_trytes : ∀ (s : List Char), AlphabetOK s →
    TrytesOK (trytesToTryteValues s) ∧ strLen s = s.length ∧
      (trytesToTryteValues s).length = s.length ∧
      tryteValuesToTrytes (trytesToTryteValues s) = some s := by
  intro s
  induction s with
  | nil => intro _; exact ⟨by simp [trytesToTryteValues, TrytesOK], rfl, rfl, rfl⟩
  | cons c s ih =>
    intro h
    rw [AlphabetOK_cons] at h
    obtain ⟨i1, i2, i3, i4⟩ := ih h.2
    obtain ⟨l1, l2, l3, l4⟩ := letter_spec c h.1
    simp only [trytesToTryteValues, l1, Nat.sub_self, List.replicate_zero, List.nil_append,
      TrytesOK_cons, List.length_cons, i3, tryteValuesToTrytes, l4, i4, strLen, List.map_cons,
      List.sum_cons]
    simp only [strLen] at i2
    exact ⟨⟨⟨l2, l3⟩, i1⟩, by omega, trivial, trivial⟩

theorem trits_three {ts : List Int} {k : Nat} (h : ts.length = 3 * (k + 1)) :
    ∃ a b c rest, ts = a :: b :: c :: rest ∧ rest.length = 3 * k := by
  match ts, h with
  | a :: b :: c :: rest, h =>
    refine ⟨a, b, c, rest, rfl, ?_⟩
    simp only [List.length_cons] at h
    omega

theorem tritsToTryteValues_spec {k : Nat} : ∀ {ts : List Int}, ts.length = 3 * k →
    TritsOK ts →
    (tritsToTryteValues ts).length = k ∧ TrytesOK (tritsToTryteValues ts) ∧
      tryteValuesToTrits (tritsToTryteValues ts) = some ts := by
  induction k with
  | zero =>
    intro ts h _
    have : ts = [] := List.length_eq_zero.mp (by omega)
    subst this
    exact ⟨rfl, by simp [tritsToTryteValues, TrytesOK], rfl⟩
  | succ k ih =>
    intro ts h ht
    obtain ⟨a, b, c, rest, rfl, hr⟩ := trits_three h
    simp only [TritsOK_cons] at ht
    obtain ⟨ha, hb, hc, hrest⟩ := ht
    obtain ⟨i1, i2, i3⟩ := ih hr hrest
    simp only [tritsToTryteValues, trit_sum ha hb hc, List.length_cons, i1, TrytesOK_cons,
      tryteValuesToTrits, trits_value ha hb hc, i3]
    exact ⟨trivial, ⟨by omega, i2⟩, trivial⟩

theorem tritsToTryteValues_append {k : Nat} : ∀ {p : List Int} (q : List Int),
    p.length = 3 * k →
    tritsToTryteValues (p ++ q) = tritsToTryteValues p ++ tritsToTryteValues q := by
  induction k with
  | zero =>
    intro p q h
    have : p = [] := List.length_eq_zero.mp (by omega)
    subst this
    rfl
  | succ k ih =>
    intro p q h
    obtain ⟨a, b, c, rest, rfl, hr⟩ := trits_three h
    simp only [List.cons_append, tritsToTryteValues, List.append_eq, ih q hr]

theorem tryteValuesToTrits_append : ∀ (l1 l2 : List Int) (t1 t2 : List Int),
    tryteValuesToTrits l1 = some t1 → tryteValuesToTrits l2 = some t2 →
    tryteValuesToTrits (l1 ++ l2) = some (t1 ++ t2) := by
  intro l1
  induction l1 with
  | nil =>
    intro l2 t1 t2 h1 h2
    simp only [tryteValuesToTrits, Option.some.injEq] at h1
    subst h1
    simpa using h2
  | cons v vs ih =>
    intro l2 t1 t2 h1 h2
    simp only [tryteValuesToTrits] at h1
    cases hl : lutGet tryteValueToTritsLUT (int8 (v - MinTryteValue)) with
    | none => rw [hl] at h1; simp at h1
    | some t =>
      cases hr : tryteValuesToTrits vs with
      | none => rw [hl, hr] at h1; simp at h1
      | some rest =>
        rw [hl, hr] at h1
        simp only [Option.some.injEq] at h1
        subst h1
        simp only [List.cons_append, tryteValuesToTrits, List.append_eq, hl, ih l2 rest t2 hr h2]

theorem take_append_getD {vs : List Int} (hl : vs.length = 81) :
    vs.take 80 ++ [vs.getD 80 0] = vs := by
  have h1 : vs.drop 80 = [vs.getD 80 0] := by
    have hlen : (vs.drop 80).length = 1 := by simp [hl]
    match hd : vs.drop 80, hlen with
    | [x], _ =>
      have : vs.getD 80 0 = x := by
        have e := congrArg (fun l => l.getD 0 0) hd
        simp only [List.getD_cons_zero] at e
        rw [← e]
        simp [List.getD_eq_getElem?_getD]
      rw [this]
  rw [← h1, List.take_append_drop]

/-! ## Value-level round trips -/

theorem decTrytes_spec {u : Nat} (hu : u < 3 ^ 242) :
    (decTrytes u).length = 81 ∧ TrytesOK (decTrytes u) ∧
      (-4 ≤ (decTrytes u).getD 80 0 ∧ (decTrytes u).getD 80 0 ≤ 4) ∧
      encVal (decTrytes u) = u := by
  have h8 := div_top_le hu
  have hlen := length_digits27 80 u
  have hget : (decTrytes u).getD 80 0 = ((u / 27 ^ 80 : Nat) : Int) - 4 := by
    unfold decTrytes
    rw [List.getD_append_right _ _ _ _ (by omega), hlen]
    rfl
  have htake : (decTrytes u).take 80 = digits27 80 u := by
    unfold decTrytes
    rw [List.take_append_of_le_length (by omega), List.take_of_length_le (by omega)]
  refine ⟨by simp [decTrytes, hlen], ?_, by rw [hget]; omega, ?_⟩
  · intro v hv
    unfold decTrytes at hv
    rcases List.mem_append.mp hv with h | h
    · exact TrytesOK_digits27 80 u v h
    · rw [List.mem_singleton] at h
      omega
  · unfold encVal
    rw [htake, hget, tryteZeroLastTrit_id (by omega) (by omega)]
    have e : ((u / 27 ^ 80 : Nat) : Int) - 4 + 4 = ((u / 27 ^ 80 : Nat) : Int) := by omega
    rw [e, Int.toNat_ofNat, unbal_digits27]

theorem decTrytes_encVal {vs : List Int} (hl : vs.length = 81) (h : TrytesOK vs) :
    decTrytes (encVal vs) = vs.take 80 ++ [tryteZeroLastTrit (vs.getD 80 0)] := by
  obtain ⟨g1, g2⟩ := TrytesOK_getD h 80
  obtain ⟨z1, z2, _⟩ := tryteZeroLastTrit_spec g1 g2
  have hlen : (vs.take 80).length = 80 := by simp [hl]
  obtain ⟨d1, d2⟩ := digits27_unbal (vs.take 80) (tryteZeroLastTrit (vs.getD 80 0) + 4).toNat
    (TrytesOK_take h 80)
  rw [hlen] at d1 d2
  unfold decTrytes encVal
  rw [d1, d2, Int.toNat_of_nonneg (by omega)]
  congr 2
  omega

theorem bytesToTryteValues_decTrytes {bytes : List Nat} (hl : bytes.length = 48)
    (hb : BytesOK bytes) : bytesToTryteValues bytes = some (decTrytes (decVal bytes)) :=
  bytesToTryteValues_eq hl hb

theorem KerlBytesToTrytes_spec {b : List Nat} (hl : b.length = 48) (hb : BytesOK b) :
    ∃ t, KerlBytesToTrytes b = some (t, none) ∧ AlphabetOK t ∧ strLen t = 81 ∧
      trytesToTryteValues t = decTrytes (decVal b) ∧
      tryteValuesToTrytes (decTrytes (decVal b)) = some t := by
  obtain ⟨_, d2⟩ := decInit_spec hl hb
  obtain ⟨v1, v2, _, _⟩ := decTrytes_spec d2
  obtain ⟨t, t1, t2, t3, t4⟩ := trytes_of_values _ v2
  refine ⟨t, ?_, t2, by rw [t3, v1], t4, t1⟩
  unfold KerlBytesToTrytes
  rw [if_neg (by simp [hl, HashBytesSize]), bytesToTryteValues_decTrytes hl hb]
  simp [t1]

theorem KerlTrytesToBytes_spec {t : List Char} (hl : strLen t = 81)
    (hv : TrytesOK (trytesToTryteValues t)) (hlen : (trytesToTryteValues t).length = 81) :
    KerlTrytesToBytes t = some (encBytes (encVal (trytesToTryteValues t)), none) := by
  unfold KerlTrytesToBytes
  rw [if_neg (by simp [hl, HashTrytesSize]), tryteValuesToBytes_encBytes hlen hv]
  rfl

theorem decode_encode_bytes {b : List Nat} (hl : b.length = 48) (hb : BytesOK b) :
    ∃ t, KerlBytesToTrytes b = some (t, none) ∧
      KerlTrytesToBytes t = some (encBytes (decVal b), none) := by
  obtain ⟨_, d2⟩ := decInit_spec hl hb
  obtain ⟨v1, v2, _, v4⟩ := decTrytes_spec d2
  obtain ⟨t, t1, _, t3, t4, _⟩ := KerlBytesToTrytes_spec hl hb
  refine ⟨t, t1, ?_⟩
  rw [KerlTrytesToBytes_spec t3 (by rw [t4]; exact v2) (by rw [t4]; exact v1), t4, v4]

theorem bytesInt_range {b : List Nat} (hl : b.length = 48) (hb : BytesOK b) :
    -(2147483648 * 4294967296 ^ 11 : Int) ≤ bytesInt b ∧
      bytesInt b < (2147483648 * 4294967296 ^ 11 : Int) := by
  obtain ⟨_, w1, w2, w3, _, _⟩ := wordsIn_spec hl hb
  have hv := wordsVal_lt w2
  rw [w1, w3] at hv
  rw [bytesInt_eq]
  split <;> omega

theorem canonInt_range {b : List Nat} (hl : b.length = 48) (hb : BytesOK b) :
    -(halfThreeVal : Int) ≤ canonInt (bytesInt b) ∧ canonInt (bytesInt b) ≤ (halfThreeVal : Int) := by
  obtain ⟨r1, r2⟩ := bytesInt_range hl hb
  have t1 := trit_eq
  have t2 := halfThreeVal_lt
  unfold canonInt
  split
  · omega
  · split <;> omega

theorem radixVal_decTrytes (u : Nat) :
    radixVal (decTrytes u) = (u : Int) - (halfThreeVal : Int) := by
  have h1 := unbal_int (digits27 80 u) (u / 27 ^ 80) (TrytesOK_digits27 80 u)
  rw [unbal_digits27, length_digits27] at h1
  have hb := bias_eq
  unfold decTrytes
  rw [radixVal_append, length_digits27]
  rw [h1, ← hb]
  ring

theorem trits_of_values : ∀ (vs : List Int), TrytesOK vs →
    ∃ ts, tryteValuesToTrits vs = some ts ∧ ts.length = 3 * vs.length ∧ TritsOK ts := by
  intro vs
  induction vs with
  | nil => intro _; exact ⟨[], rfl, rfl, by simp [TritsOK]⟩
  | cons v vs ih =>
    intro h
    rw [TrytesOK_cons] at h
    obtain ⟨ts, s1, s2, s3⟩ := ih h.2
    obtain ⟨a, b, c, e, ha, hb, hc, _⟩ := value_trits h.1.1 h.1.2
    refine ⟨a :: b :: c :: ts, ?_, ?_, ?_⟩
    · simp only [tryteValuesToTrits, e, s1]
    · simp only [List.length_cons, s2]; omega
    · simp only [TritsOK_cons]
      exact ⟨ha, hb, hc, s3⟩

theorem index_range {v : Int} (h1 : -13 ≤ v) (h2 : v ≤ 13) :
    0 ≤ int8 (v - MinTryteValue) ∧ int8 (v - MinTryteValue) ≤ 26 := by
  unfold int8 MinTryteValue; omega

theorem KerlBytesToTrits_spec {b : List Nat} (hl : b.length = 48) (hb : BytesOK b) :
    ∃ ts, KerlBytesToTrits b = some (ts, none) ∧ ts.length = 243 ∧ TritsOK ts ∧
      ts.getD 242 0 = 0 ∧ tryteValuesToTrits (decTrytes (decVal b)) = some ts := by
  obtain ⟨_, d2⟩ := decInit_spec hl hb
  have h8 := div_top_le d2
  obtain ⟨t1, p1, p2, p3⟩ := trits_of_values _ (TrytesOK_digits27 80 (decVal b))
  rw [length_digits27] at p2
  obtain ⟨a, c, d, e, ha, hc, hd, hs⟩ :=
    @value_trits (((decVal b / 27 ^ 80 : Nat) : Int) - 4) (by omega) (by omega)
  have hd0 : d = 0 := by omega
  subst hd0
  have hlast : tryteValuesToTrits [((decVal b / 27 ^ 80 : Nat) : Int) - 4] = some [a, c, 0] := by
    simp only [tryteValuesToTrits, e]
  have hall := tryteValuesToTrits_append _ _ _ _ p1 hlast
  have hdec : tryteValuesToTrits (decTrytes (decVal b)) = some (t1 ++ [a, c, 0]) := hall
  refine ⟨t1 ++ [a, c, 0], ?_, by simp [p2], ?_, ?_, hdec⟩
  · unfold KerlBytesToTrits
    rw [if_neg (by simp [hl, HashBytesSize]), bytesToTryteValues_decTrytes hl hb]
    simp [hdec]
  · intro t ht
    rcases List.mem_append.mp ht with h | h
    · exact p3 t h
    · simp only [List.mem_cons, List.mem_singleton, List.not_mem_nil, or_false] at h
      rcases h with h | h | h <;> omega
  · rw [List.getD_append_right _ _ _ _ (by omega), p2]
    rfl

theorem zero_top_trit {a b c : Int} (ha : -1 ≤ a ∧ a ≤ 1) (hb : -1 ≤ b ∧ b ≤ 1)
    (hc : -1 ≤ c ∧ c ≤ 1) : tryteZeroLastTrit (a + 3 * b + 9 * c) = a + 3 * b := by
  unfold tryteZeroLastTrit int8
  split
  · have hc1 : c = 1 := by omega
    subst hc1; omega
  · split
    · have hc1 : c = -1 := by omega
      subst hc1; omega
    · omega

theorem trits_split {ts : List Int} (hl : ts.length = 243) :
    ∃ p a b c, ts = p ++ [a, b, c] ∧ p.length = 240 := by
  have hlen : (ts.drop 240).length = 3 := by simp [hl]
  match hd : ts.drop 240, hlen with
  | [a, b, c], _ =>
    refine ⟨ts.take 240, a, b, c, ?_, by simp [hl]⟩
    rw [← hd, List.take_append_drop]

/-! ## Length validation -/

theorem length_trytesToTryteValues (s : List Char) :
    (trytesToTryteValues s).length = strLen s := by
  induction s with
  | nil => rfl
  | cons c s ih =>
    have h1 : 1 ≤ runeLen c := by unfold runeLen; split_ifs <;> omega
    simp only [trytesToTryteValues, List.length_cons, List.length_append, List.length_replicate,
      ih, strLen, List.map_cons, List.sum_cons]
    omega

theorem length_tritsToTryteValues {k : Nat} : ∀ {ts : List Int}, ts.length = 3 * k →
    (tritsToTryteValues ts).length = k := by
  induction k with
  | zero =>
    intro ts h
    have : ts = [] := List.length_eq_zero.mp (by omega)
    subst this
    rfl
  | succ k ih =>
    intro ts h
    obtain ⟨a, b, c, rest, rfl, hr⟩ := trits_three h
    simp only [tritsToTryteValues, List.length_cons, ih hr]

theorem map_ne_error {α : Type} (o : Option α) (z : α) (e : GoError) :
    o.map (fun x => (x, (none : Option GoError))) ≠ some (z, some e) := by
  cases o <;> simp

theorem tritVal_append (p q : List Int) :
    tritVal (p ++ q) = tritVal p + 3 ^ p.length * tritVal q := by
  induction p with
  | nil => simp [tritVal]
  | cons t ts ih =>
    have e : (t :: ts) ++ q = t :: (ts ++ q) := rfl
    rw [e, tritVal, tritVal, ih, List.length_cons, pow_succ]
    ring

theorem radixVal_tritsToTryteValues {k : Nat} : ∀ {ts : List Int}, ts.length = 3 * k →
    TritsOK ts → radixVal (tritsToTryteValues ts) = tritVal ts := by
  induction k with
  | zero =>
    intro ts h _
    have : ts = [] := List.length_eq_zero.mp (by omega)
    subst this
    rfl
  | succ k ih =>
    intro ts h ht
    obtain ⟨a, b, c, rest, rfl, hr⟩ := trits_three h
    simp only [TritsOK_cons] at ht
    obtain ⟨ha, hb, hc, hrest⟩ := ht
    simp only [tritsToTryteValues, trit_sum ha hb hc, radixVal, tritVal, ih hr hrest]
    ring

theorem trits_values_split {p : List Int} {a b c : Int} (hp : p.length = 240)
    (ha : -1 ≤ a ∧ a ≤ 1) (hb : -1 ≤ b ∧ b ≤ 1) (hc : -1 ≤ c ∧ c ≤ 1) :
    (tritsToTryteValues p).length = 80 ∧
      (tritsToTryteValues (p ++ [a, b, c])).take 80 = tritsToTryteValues p ∧
      (tritsToTryteValues (p ++ [a, b, c])).getD 80 0 = a + 3 * b + 9 * c := by
  have q1 := @length_tritsToTryteValues 80 p (by omega)
  have hvs : tritsToTryteValues (p ++ [a, b, c])
      = tritsToTryteValues p ++ [a + 3 * b + 9 * c] := by
    rw [@tritsToTryteValues_append 80 p [a, b, c] (by omega)]
    simp only [tritsToTryteValues, trit_sum ha hb hc]
  refine ⟨q1, ?_, ?_⟩
  · rw [hvs, List.take_append_of_le_length (by omega), List.take_of_length_le (by omega)]
  · rw [hvs, List.getD_append_right _ _ _ _ (by omega), q1]
    rfl

theorem tritVal_zero_last {ts : List Int} (hl : ts.length = 243) (ht : TritsOK ts) :
    radixVal ((tritsToTryteValues ts).take 80)
        + tryteZeroLastTrit ((tritsToTryteValues ts).getD 80 0) * 27 ^ 80
      = tritVal (ts.set 242 0) := by
  obtain ⟨p, a, b, c, rfl, hp⟩ := trits_split hl
  have hpt : TritsOK p := fun t h => ht t (List.mem_append_left _ h)
  have ha : -1 ≤ a ∧ a ≤ 1 := ht a (by simp)
  have hb : -1 ≤ b ∧ b ≤ 1 := ht b (by simp)
  have hc : -1 ≤ c ∧ c ≤ 1 := ht c (by simp)
  obtain ⟨_, s2, s3⟩ := trits_values_split hp ha hb hc
  have hset : (p ++ [a, b, c]).set 242 0 = p ++ [a, b, 0] := by
    rw [List.set_append_right _ _ (by omega), hp]
    rfl
  rw [s2, s3, zero_top_trit ha hb hc, hset, tritVal_append, hp,
    @radixVal_tritsToTryteValues 80 p (by omega) hpt]
  simp only [tritVal]
  have e : (27 : Int) ^ 80 = 3 ^ 240 := by norm_num
  rw [e]
  ring

theorem values_of_trits : ∀ (vs : List Int), TrytesOK vs →
    ∃ ts, tryteValuesToTrits vs = some ts ∧ ts.length = 3 * vs.length ∧ TritsOK ts ∧
      tritsToTryteValues ts = vs := by
  intro vs
  induction vs with
  | nil => intro _; exact ⟨[], rfl, rfl, by simp [TritsOK], rfl⟩
  | cons v vs ih =>
    intro h
    rw [TrytesOK_cons] at h
    obtain ⟨ts, s1, s2, s3, s4⟩ := ih h.2
    obtain ⟨a, b, c, e, ha, hb, hc, hs⟩ := value_trits h.1.1 h.1.2
    refine ⟨a :: b :: c :: ts, ?_, ?_, ?_, ?_⟩
    · simp only [tryteValuesToTrits, e, s1]
    · simp only [List.length_cons, s2]; omega
    · simp only [TritsOK_cons]
      exact ⟨ha, hb, hc, s3⟩
    · simp only [tritsToTryteValues, trit_sum ha hb hc, hs, s4]

theorem tryteZeroLastTrit_idem {v : Int} (h1 : -13 ≤ v) (h2 : v ≤ 13) :
    tryteZeroLastTrit (tryteZeroLastTrit v) = tryteZeroLastTrit v := by
  obtain ⟨z1, z2, _⟩ := tryteZeroLastTrit_spec h1 h2
  exact tryteZeroLastTrit_id z1 z2

/-! ## States of the two loops -/

theorem getD_zero_of_val_lt : ∀ (b : List Nat) (k : Nat), WordsOK b →
    wordsVal b < 4294967296 ^ k → ∀ j, k ≤ j → b.getD j 0 = 0 := by
  intro b
  induction b with
  | nil => intro k _ _ j _; rfl
  | cons w ws ih =>
    intro k hb hv j hj
    rw [WordsOK_cons] at hb
    cases k with
    | zero =>
      simp only [pow_zero, wordsVal] at hv
      have hw0 : w = 0 := by omega
      have hws : wordsVal ws < 4294967296 ^ 0 := by simp only [pow_zero]; omega
      cases j with
      | zero => simpa using hw0
      | succ j =>
        simp only [List.getD_cons_succ]
        exact ih 0 hb.2 hws j (Nat.zero_le _)
    | succ k =>
      cases j with
      | zero => omega
      | succ j =>
        simp only [List.getD_cons_succ]
        exact ih k hb.2 (wordsVal_tail_lt hv) j (by omega)

theorem revTake_length {vs : List Int} (hl : vs.length = 81) :
    ((vs.take (HashTrytesSize - 1)).reverse).length = 80 := by
  simp [HashTrytesSize, hl]

theorem revTake_getD {vs : List Int} (hl : vs.length = 81) {k : Nat} (hk : k < 80) :
    ((vs.take (HashTrytesSize - 1)).reverse)[k]? = some (vs.getD (79 - k) 0) := by
  have h1 : k < (vs.take (HashTrytesSize - 1)).length := by simp [HashTrytesSize, hl]; omega
  rw [List.getElem?_reverse h1]
  have h2 : (vs.take (HashTrytesSize - 1)).length - 1 - k = 79 - k := by
    simp [HashTrytesSize, hl]
  rw [h2, List.getElem?_take_of_lt (by simp only [HashTrytesSize]; omega)]
  rw [List.getD_eq_getElem?_getD, List.getElem?_eq_getElem (by omega)]
  rfl

theorem encState_succ {vs : List Int} (hl : vs.length = 81) {k : Nat} (hk : k < 80) :
    encState vs (k + 1) = encStep (encState vs k) (vs.getD (79 - k) 0) := by
  unfold encState
  rw [List.take_succ, revTake_getD hl hk, List.foldl_append]
  rfl

theorem encState_spec {vs : List Int} (hl : vs.length = 81) (hv : TrytesOK vs) {k : Nat}
    (hk : k ≤ 80) :
    ∃ n, EncInv (encState vs k) n ∧ n + 1 ≤ 9 * 27 ^ k := by
  have hi := encInit_spec hv
  have ht : TrytesOK (((vs.take (HashTrytesSize - 1)).reverse).take k) :=
    TrytesOK_take (TrytesOK_reverse (TrytesOK_take hv _)) k
  have hlen : (((vs.take (HashTrytesSize - 1)).reverse).take k).length = k := by
    rw [List.length_take, revTake_length hl]; omega
  obtain ⟨r1, r2⟩ := encLoop_spec _ (encInit vs) _ 0 hi.1 hi.2 (by rw [hlen]; omega) ht
  rw [hlen] at r2
  refine ⟨_, r1, ?_⟩
  simpa using r2

theorem encState_final {vs : List Int} (hl : vs.length = 81) (hv : TrytesOK vs) :
    tryteValuesToBytes vs
      = some (Reverse (bytesOfWords (MustSub (encState vs 80).1 halfThree))) := by
  have e : ((vs.take (HashTrytesSize - 1)).reverse).take 80
      = (vs.take (HashTrytesSize - 1)).reverse :=
    List.take_of_length_le (by rw [revTake_length hl])
  have hi := encInit_spec hv
  have ht : TrytesOK (vs.take (HashTrytesSize - 1)).reverse :=
    TrytesOK_reverse (TrytesOK_take hv _)
  have hloop := encLoop_eq_foldl (vs.take (HashTrytesSize - 1)).reverse (encInit vs) _ 0
    hi.1 hi.2 (by rw [revTake_length hl]) ht
  unfold tryteValuesToBytes encState
  rw [if_neg (by simp [hl, HashTrytesSize]), e, hloop]
  rfl

theorem step_bound {n k : Nat} (a : Nat) (hn : n + 1 ≤ 9 * 27 ^ k) (hk : k < 80)
    (ha : a ≤ 26) : 27 * n + a + 1 ≤ 9 * 27 ^ (k + 1) ∧ 27 * n + a < 3 ^ 242 := by
  have hpow : 27 ^ (k + 1) ≤ 27 ^ 80 := Nat.pow_le_pow_right (by norm_num) (by omega)
  have e : 3 ^ 242 = 9 * 27 ^ 80 := by norm_num
  have h1 : 27 * n + a + 1 ≤ 9 * 27 ^ (k + 1) := by rw [pow_succ]; omega
  exact ⟨h1, by omega⟩

theorem encStep_full {st : List Nat × Nat} {n : Nat} (v : Int) (h : EncInv st n)
    (hb : 27 * n + uint32 (int8 (v + halfTryte)) < 4294967296 ^ IntLength) :
    (encStep st v).1 = natToWords IntLength (27 * n + uint32 (int8 (v + halfTryte))) ∧
      (AddSmall (mulRadix IntLength st.1 0).1 (uint32 (int8 (v + halfTryte)))).1
        = natToWords IntLength (27 * n + uint32 (int8 (v + halfTryte))) ∧
      (mulRadix IntLength st.1 0).2 = 0 := by
  obtain ⟨s1, s2, _, s4, _⟩ := encStep_spec v h hb
  obtain ⟨hl, hw, _, hv, _⟩ := h
  have hlt := wordsVal_lt hw
  rw [hl] at hlt
  obtain ⟨m1, m2, _, m4, _⟩ := mulRadix_spec IntLength st.1 0 (by omega) hw hlt (by norm_num)
  rw [hv] at m4
  have hc : (mulRadix IntLength st.1 0).2 = 0 := by
    by_contra hne
    have : 4294967296 ^ IntLength * 1
        ≤ 4294967296 ^ IntLength * (mulRadix IntLength st.1 0).2 :=
      Nat.mul_le_mul_left _ (by omega)
    omega
  rw [hc] at m4
  obtain ⟨a1, a2, a3, _⟩ := AddSmall_spec (mulRadix IntLength st.1 0).1
    (uint32 (int8 (v + halfTryte))) m2 (by rw [m1, hl]; omega)
  refine ⟨?_, ?_, hc⟩
  · rw [← s4, ← s1]; exact (natToWords_wordsVal s2).symm
  · have hA := natToWords_wordsVal a2
    rw [a1, m1, hl, a3] at hA
    rw [← hA]
    congr 1
    omega

theorem decStep_spec {st : List Nat × Nat} (hl : st.1.length = 12) (hw : WordsOK st.1)
    (hnz : st.2 < 12) (hv : wordsVal st.1 < 4294967296 ^ (st.2 + 1)) :
    (decStep st).1 = (divRadix (st.2 + 1) st.1).1 ∧ (decStep st).1.length = 12 ∧
      WordsOK (decStep st).1 ∧ (decStep st).2 < 12 ∧
      wordsVal (decStep st).1 < 4294967296 ^ ((decStep st).2 + 1) ∧
      wordsVal (decStep st).1 = wordsVal st.1 / 27 := by
  obtain ⟨d1, d2, d3, _⟩ := divRadix_spec (st.2 + 1) st.1 (by omega) hw hv
  have hq : wordsVal (divRadix (st.2 + 1) st.1).1 < 4294967296 ^ (st.2 + 1) := by
    rw [d3]; exact lt_of_le_of_lt (Nat.div_le_self _ _) hv
  unfold decStep
  refine ⟨rfl, by simp only [d1, hl], d2, ?_, ?_, d3⟩
  · simp only
    split <;> omega
  · simp only
    by_cases hc : st.2 > 0 ∧ (divRadix (st.2 + 1) st.1).1.getD st.2 0 = 0
    · rw [if_pos hc]
      have := wordsVal_lt_of_top_zero _ st.2 d2 hq hc.2
      have e : st.2 - 1 + 1 = st.2 := by omega
      rw [e]; exact this
    · rw [if_neg hc]; exact hq

theorem decIter_spec {b : List Nat} (hl : b.length = 12) (hw : WordsOK b) (k : Nat) :
    (decStep^[k] (b, 11)).1.length = 12 ∧ WordsOK (decStep^[k] (b, 11)).1 ∧
      (decStep^[k] (b, 11)).2 < 12 ∧
      wordsVal (decStep^[k] (b, 11)).1 < 4294967296 ^ ((decStep^[k] (b, 11)).2 + 1) ∧
      wordsVal (decStep^[k] (b, 11)).1 = wordsVal b / 27 ^ k := by
  induction k with
  | zero =>
    have := wordsVal_lt hw
    rw [hl] at this
    simp only [Function.iterate_zero, id_eq, pow_zero, Nat.div_one]
    exact ⟨hl, hw, by norm_num, this, trivial⟩
  | succ k ih =>
    obtain ⟨i1, i2, i3, i4, i5⟩ := ih
    obtain ⟨_, s2, s3, s4, s5, s6⟩ := decStep_spec i1 i2 i3 i4
    rw [Function.iterate_succ_apply']
    refine ⟨s2, s3, s4, s5, ?_⟩
    rw [s6, i5, Nat.div_div_eq_div_mul, pow_succ]

theorem decLoop_iter : ∀ (n : Nat) (b : List Nat) (nz : Nat),
    (decLoop n b nz).2 = (decStep^[n] (b, nz)).1 ∧
      ∀ k, k < n → (decLoop n b nz).1.getD k 0
        = int8 (int8 ((divRadix ((decStep^[k] (b, nz)).2 + 1) (decStep^[k] (b, nz)).1).2 : Int)
            - halfTryte) := by
  intro n
  induction n with
  | zero => intro b nz; exact ⟨rfl, fun k hk => absurd hk (Nat.not_lt_zero k)⟩
  | succ n ih =>
    intro b nz
    have hstep : decStep (b, nz) = ((divRadix (nz + 1) b).1,
        if nz > 0 ∧ (divRadix (nz + 1) b).1.getD nz 0 = 0 then nz - 1 else nz) := rfl
    obtain ⟨i1, i2⟩ := ih (divRadix (nz + 1) b).1
      (if nz > 0 ∧ (divRadix (nz + 1) b).1.getD nz 0 = 0 then nz - 1 else nz)
    constructor
    · rw [Function.iterate_succ_apply, hstep, ← i1]
      rfl
    · intro k hk
      cases k with
      | zero => rfl
      | succ k =>
        rw [Function.iterate_succ_apply, hstep, ← i2 k (by omega)]
        rfl

theorem divRadix_full {b : List Nat} {nz : Nat} (hl : b.length = 12) (hw : WordsOK b)
    (hnz : nz < 12) (hv : wordsVal b < 4294967296 ^ (nz + 1)) :
    divRadix (nz + 1) b = divRadix IntLength b := by
  obtain ⟨d1, d2, d3, d4⟩ := divRadix_spec (nz + 1) b (by omega) hw hv
  have hlt := wordsVal_lt hw
  rw [hl] at hlt
  obtain ⟨f1, f2, f3, f4⟩ := divRadix_spec IntLength b (by simp [IntLength, hl]) hw hlt
  have e1 := natToWords_wordsVal d2
  have e2 := natToWords_wordsVal f2
  rw [d1, d3] at e1
  rw [f1, f3] at e2
  exact Prod.ext (by rw [← e1, ← e2]) (by rw [d4, f4])

theorem decState_spec {bytes : List Nat} (hl : bytes.length = 48) (hb : BytesOK bytes)
    (k : Nat) :
    (decState bytes k).1.length = 12 ∧ WordsOK (decState bytes k).1 ∧
      (decState bytes k).2 < 12 ∧
      wordsVal (decState bytes k).1 < 4294967296 ^ ((decState bytes k).2 + 1) ∧
      wordsVal (decState bytes k).1 = decVal bytes / 27 ^ k := by
  obtain ⟨d1, d2⟩ := decInit_spec hl hb
  have hw : WordsOK (decInit bytes) := by rw [d1]; exact WordsOK_natToWords _ _
  have hlen : (decInit bytes).length = 12 := by rw [d1]; exact length_natToWords _ _
  have hval : wordsVal (decInit bytes) = decVal bytes := by
    rw [d1, wordsVal_natToWords]
    exact Nat.mod_eq_of_lt (lt_trans d2 trit_lt)
  have := decIter_spec hlen hw k
  rw [hval] at this
  exact this

theorem natToWords_small {t : Nat} (h : t < 4294967296) :
    natToWords 12 t = t :: List.replicate 11 0 := by
  simp [natToWords, Nat.mod_eq_of_lt h, Nat.div_eq_of_lt h, List.replicate]

theorem encState_val80 {vs : List Int} (hl : vs.length = 81) (hv : TrytesOK vs) :
    wordsVal (encState vs 80).1 = encVal vs := by
  have hi := encInit_spec hv
  have ht : TrytesOK (vs.take 80).reverse := TrytesOK_reverse (TrytesOK_take hv 80)
  have hlen : (vs.take 80).reverse.length = 80 := by simp [hl]
  obtain ⟨r1, _⟩ := encLoop_spec (vs.take 80).reverse (encInit vs) _ 0 hi.1 hi.2
    (by omega) ht
  rw [List.reverse_reverse] at r1
  have e : ((vs.take (HashTrytesSize - 1)).reverse).take 80 = (vs.take 80).reverse :=
    List.take_of_length_le (by rw [revTake_length hl])
  unfold encState
  rw [e]
  exact r1.2.2.2.1

theorem digit_range {vs : List Int} (hv : TrytesOK vs) (i : Nat) :
    0 ≤ vs.getD i 0 + halfTryte ∧ vs.getD i 0 + halfTryte ≤ 26 ∧
      uint32 (int8 (vs.getD i 0 + halfTryte)) ≤ 26 ∧
      uint32 (int8 (vs.getD i 0 + halfTryte)) = (vs.getD i 0 + 13).toNat := by
  obtain ⟨g1, g2⟩ := TrytesOK_getD hv i
  have e := digit_eq g1 g2
  rw [e]
  unfold halfTryte
  omega

theorem encState_step {vs : List Int} (hl : vs.length = 81) (hv : TrytesOK vs) {k : Nat}
    (hk : k < 80) :
    ∃ n, EncInv (encState vs k) n ∧ n + 1 ≤ 9 * 27 ^ k ∧
      27 * n + uint32 (int8 (vs.getD (79 - k) 0 + halfTryte)) < 4294967296 ^ IntLength := by
  obtain ⟨n, h1, h2⟩ := encState_spec hl hv (Nat.le_of_lt hk)
  obtain ⟨_, _, d3, _⟩ := digit_range hv (79 - k)
  obtain ⟨_, s2⟩ := step_bound (uint32 (int8 (vs.getD (79 - k) 0 + halfTryte))) h2 hk d3
  have := trit_lt
  exact ⟨n, h1, h2, by simp only [IntLength]; omega⟩

theorem length_decLoop {b : List Nat} (hl : b.length = 12) (hw : WordsOK b) :
    (decLoop 80 b 11).1.length = 80 := by
  have hlt := wordsVal_lt hw
  rw [hl] at hlt
  obtain ⟨r1, _⟩ := decLoop_spec 80 b 11 hl hw (by norm_num) hlt
  rw [r1, length_digits27]

/-! ## The claims -/

/-- C1: for every 48-byte input whose big-endian two's-complement value lies between
`-halfThree` and `halfThree`, decoding to trytes and encoding the trytes again returns the
input unchanged, and neither call returns an error. -/
theorem roundtrip_canonical_bytes (b : List Nat) (hl : b.length = 48) (hb : BytesOK b)
    (h1 : -(wordsVal halfThree : Int) ≤ bytesInt b)
    (h2 : bytesInt b ≤ (wordsVal halfThree : Int)) :
    ∃ t, KerlBytesToTrytes b = some (t, none) ∧ KerlTrytesToBytes t = some (b, none) := by
  rw [wordsVal_halfThree] at h1 h2
  obtain ⟨t, t1, t2⟩ := decode_encode_bytes hl hb
  rw [encBytes_decVal_of_canon hl hb h1 h2] at t2
  exact ⟨t, t1, t2⟩

set_option exponentiation.threshold 512 in
/-- Witness of C1 on the 48 bytes of the first tryte string of the test table. -/
theorem roundtrip_canonical_bytes_witness :
    (sampleBytes.length = 48 ∧ BytesOK sampleBytes ∧
      -(wordsVal halfThree : Int) ≤ bytesInt sampleBytes ∧
      bytesInt sampleBytes ≤ (wordsVal halfThree : Int)) ∧
    ∃ t, KerlBytesToTrytes sampleBytes = some (t, none) ∧
      KerlTrytesToBytes t = some (sampleBytes, none) :=
  ⟨⟨by decide, by unfold BytesOK sampleBytes; decide, by decide, by decide⟩,
    roundtrip_canonical_bytes sampleBytes (by decide) (by unfold BytesOK sampleBytes; decide)
      (by decide) (by decide)⟩

/-- C2: for every 81-symbol string over the tryte alphabet whose most-significant tryte
(index 80) has a value between -4 and 4, encoding to bytes and decoding the bytes again
returns the string unchanged, and neither call returns an error. -/
theorem roundtrip_canonical_trytes (t : List Char) (hl : t.length = 81) (ha : AlphabetOK t)
    (h1 : -4 ≤ (trytesToTryteValues t).getD 80 0) (h2 : (trytesToTryteValues t).getD 80 0 ≤ 4) :
    ∃ b, KerlTrytesToBytes t = some (b, none) ∧ KerlBytesToTrytes b = some (t, none) := by
  obtain ⟨v1, v2, v3, v4⟩ := values_of_trytes t ha
  rw [hl] at v2 v3
  obtain ⟨e1, e2, _, e4⟩ := encBytes_spec (encVal_lt v3 v1)
  refine ⟨_, KerlTrytesToBytes_spec v2 v1 v3, ?_⟩
  obtain ⟨t', t1, _, _, _, t5⟩ := KerlBytesToTrytes_spec e1 e2
  rw [e4, decTrytes_encVal v3 v1, tryteZeroLastTrit_id h1 h2, take_append_getD v3, v4] at t5
  rw [t1, ← Option.some.inj t5]

/-- Witness of C2 on the first tryte string of the test table. -/
theorem roundtrip_canonical_trytes_witness :
    (sampleTrytes.length = 81 ∧ AlphabetOK sampleTrytes ∧
      -4 ≤ (trytesToTryteValues sampleTrytes).getD 80 0 ∧
      (trytesToTryteValues sampleTrytes).getD 80 0 ≤ 4) ∧
    ∃ b, KerlTrytesToBytes sampleTrytes = some (b, none) ∧
      KerlBytesToTrytes b = some (sampleTrytes, none) :=
  ⟨⟨by decide, by unfold AlphabetOK; decide, by decide, by decide⟩,
    roundtrip_canonical_trytes sampleTrytes (by decide) (by unfold AlphabetOK; decide)
      (by decide) (by decide)⟩

/-- C3: for every sequence of 243 trits, each -1, 0 or 1, encoding to bytes and decoding
the bytes to trits returns the sequence with the trit at index 242 replaced by 0 and every
other trit unchanged. -/
theorem roundtrip_trits (ts : List Int) (hl : ts.length = 243) (ht : TritsOK ts) :
    ∃ b, KerlTritsToBytes ts = some (b, none) ∧
      KerlBytesToTrits b = some (ts.set 242 0, none) := by
  obtain ⟨p, a, b, c, rfl, hp⟩ := trits_split hl
  have hpt : TritsOK p := fun t h => ht t (List.mem_append_left _ h)
  have ha : -1 ≤ a ∧ a ≤ 1 := ht a (by simp)
  have hb : -1 ≤ b ∧ b ≤ 1 := ht b (by simp)
  have hc : -1 ≤ c ∧ c ≤ 1 := ht c (by simp)
  obtain ⟨q1, q2, q3⟩ := @tritsToTryteValues_spec 80 p (by omega) hpt
  have hvs : tritsToTryteValues (p ++ [a, b, c])
      = tritsToTryteValues p ++ [a + 3 * b + 9 * c] := by
    rw [@tritsToTryteValues_append 80 p [a, b, c] (by omega)]
    simp only [tritsToTryteValues, trit_sum ha hb hc]
  have hlen : (tritsToTryteValues (p ++ [a, b, c])).length = 81 := by
    rw [hvs]; simp [q1]
  have hok : TrytesOK (tritsToTryteValues (p ++ [a, b, c])) := by
    rw [hvs]
    intro v hv
    rcases List.mem_append.mp hv with h | h
    · exact q2 v h
    · rw [List.mem_singleton] at h; omega
  have htake : (tritsToTryteValues (p ++ [a, b, c])).take 80 = tritsToTryteValues p := by
    rw [hvs, List.take_append_of_le_length (by omega), List.take_of_length_le (by omega)]
  have hget : (tritsToTryteValues (p ++ [a, b, c])).getD 80 0 = a + 3 * b + 9 * c := by
    rw [hvs, List.getD_append_right _ _ _ _ (by omega), q1]
    rfl
  obtain ⟨e1, e2, _, e4⟩ := encBytes_spec (encVal_lt hlen hok)
  refine ⟨encBytes (encVal (tritsToTryteValues (p ++ [a, b, c]))), ?_, ?_⟩
  · unfold KerlTritsToBytes
    have hcan : CanBeHash (p ++ [a, b, c]) = true := by
      unfold CanBeHash HashTrinarySize; simp [hl]
    rw [hcan, tryteValuesToBytes_encBytes hlen hok]
    rfl
  · obtain ⟨ts', s1, _, _, _, s5⟩ := KerlBytesToTrits_spec e1 e2
    rw [e4, decTrytes_encVal hlen hok, htake, hget, zero_top_trit ha hb hc] at s5
    have hlast : tryteValuesToTrits [a + 3 * b] = some [a, b, 0] := by
      have := @trits_value a b 0 ha hb (by omega)
      simp only [Int.mul_zero, Int.add_zero] at this
      simp only [tryteValuesToTrits, this]
    rw [tryteValuesToTrits_append _ _ _ _ q3 hlast] at s5
    have hset : (p ++ [a, b, c]).set 242 0 = p ++ [a, b, 0] := by
      rw [List.set_append_right _ _ (by omega), hp]
      rfl
    rw [s1, hset, ← Option.some.inj s5]

set_option maxRecDepth 100000 in
/-- Witness of C3 on the sequence of 243 trits all equal to 1. -/
theorem roundtrip_trits_witness :
    (sampleTrits.length = 243 ∧ TritsOK sampleTrits) ∧
    ∃ b, KerlTritsToBytes sampleTrits = some (b, none) ∧
      KerlBytesToTrits b = some (sampleTrits.set 242 0, none) :=
  ⟨⟨by decide, by unfold TritsOK; decide⟩,
    roundtrip_trits sampleTrits (by decide) (by unfold TritsOK; decide)⟩

/-- C4: for every 48-byte input with big-endian two's-complement value `x`,
`KerlBytesZeroLastTrit` leaves 48 bytes whose value is `x` when `x` lies between
`-halfThree` and `halfThree`, `x - 3^242` when `x > halfThree` and `x + 3^242` when
`x < -halfThree`, the exact integer result; in every case the resulting value lies between
`-halfThree` and `halfThree`. -/
theorem zeroLastTrit_value (b : List Nat) (hl : b.length = 48) (hb : BytesOK b) :
    ∃ r, KerlBytesZeroLastTrit b = some r ∧ r.length = 48 ∧ BytesOK r ∧
      (-(wordsVal halfThree : Int) ≤ bytesInt b → bytesInt b ≤ (wordsVal halfThree : Int) →
        bytesInt r = bytesInt b) ∧
      (bytesInt b > (wordsVal halfThree : Int) → bytesInt r = bytesInt b - 3 ^ 242) ∧
      (bytesInt b < -(wordsVal halfThree : Int) → bytesInt r = bytesInt b + 3 ^ 242) ∧
      -(wordsVal halfThree : Int) ≤ bytesInt r ∧ bytesInt r ≤ (wordsVal halfThree : Int) := by
  rw [wordsVal_halfThree]
  obtain ⟨_, d2⟩ := decInit_spec hl hb
  obtain ⟨e1, e2, e3, _⟩ := encBytes_spec d2
  obtain ⟨c1, c2⟩ := canonInt_range hl hb
  have hr : bytesInt (encBytes (decVal b)) = canonInt (bytesInt b) := by
    rw [e3]; unfold decVal; omega
  refine ⟨_, KerlBytesZeroLastTrit_eq hl hb, e1, e2, ?_, ?_, ?_, ?_, ?_⟩
  · intro h1 h2
    rw [hr]; unfold canonInt
    rw [if_neg (by omega), if_neg (by omega)]
  · intro h1
    rw [hr]; unfold canonInt
    rw [if_pos h1]
  · intro h1
    rw [hr]; unfold canonInt
    rw [if_neg (by omega), if_pos h1]
  · rw [hr]; exact c1
  · rw [hr]; exact c2

/-- Witness of C4 on the least 384-bit integer, which lies below `-halfThree`. -/
theorem zeroLastTrit_value_witness :
    (minBytes.length = 48 ∧ BytesOK minBytes) ∧
    ∃ r, KerlBytesZeroLastTrit minBytes = some r ∧ r.length = 48 ∧ BytesOK r ∧
      (-(wordsVal halfThree : Int) ≤ bytesInt minBytes →
        bytesInt minBytes ≤ (wordsVal halfThree : Int) → bytesInt r = bytesInt minBytes) ∧
      (bytesInt minBytes > (wordsVal halfThree : Int) → bytesInt r = bytesInt minBytes - 3 ^ 242) ∧
      (bytesInt minBytes < -(wordsVal halfThree : Int) →
        bytesInt r = bytesInt minBytes + 3 ^ 242) ∧
      -(wordsVal halfThree : Int) ≤ bytesInt r ∧ bytesInt r ≤ (wordsVal halfThree : Int) :=
  ⟨⟨by decide, by unfold BytesOK minBytes; decide⟩,
    zeroLastTrit_value minBytes (by decide) (by unfold BytesOK minBytes; decide)⟩

/-- C5: canonicalization is idempotent: for every 48-byte input, applying
`KerlBytesZeroLastTrit` to its own result leaves the same 48 bytes. -/
theorem zeroLastTrit_idempotent (b : List Nat) (hl : b.length = 48) (hb : BytesOK b) :
    ∃ r, KerlBytesZeroLastTrit b = some r ∧ KerlBytesZeroLastTrit r = some r := by
  obtain ⟨_, d2⟩ := decInit_spec hl hb
  obtain ⟨e1, e2, _, e4⟩ := encBytes_spec d2
  refine ⟨_, KerlBytesZeroLastTrit_eq hl hb, ?_⟩
  rw [KerlBytesZeroLastTrit_eq e1 e2, e4]

/-- Witness of C5 on the least 384-bit integer. -/
theorem zeroLastTrit_idempotent_witness :
    (minBytes.length = 48 ∧ BytesOK minBytes) ∧
    ∃ r, KerlBytesZeroLastTrit minBytes = some r ∧ KerlBytesZeroLastTrit r = some r :=
  ⟨⟨by decide, by unfold BytesOK minBytes; decide⟩,
    zeroLastTrit_idempotent minBytes (by decide) (by unfold BytesOK minBytes; decide)⟩

/-- C6: for every sequence of 81 tryte values between -13 and 13, `tryteValuesToBytes`
returns 48 bytes whose big-endian two's-complement value is the balanced sum of
`v_i * 27^i` over `i < 80` plus `tryteZeroLastTrit (v_80) * 27^80`; equivalently, when the
values come from 243 trits, the balanced-ternary sum of the trits with the trit at index
242 taken as 0. -/
theorem encoder_value (vs : List Int) (hl : vs.length = 81) (hv : TrytesOK vs) :
    ∃ bs, tryteValuesToBytes vs = some bs ∧ bs.length = 48 ∧ BytesOK bs ∧
      bytesInt bs = radixVal (vs.take 80) + tryteZeroLastTrit (vs.getD 80 0) * 27 ^ 80 ∧
      (∀ ts : List Int, ts.length = 243 → TritsOK ts → tritsToTryteValues ts = vs →
        bytesInt bs = tritVal (ts.set 242 0)) := by
  obtain ⟨e1, e2, e3, _⟩ := encBytes_spec (encVal_lt hl hv)
  obtain ⟨g1, g2⟩ := TrytesOK_getD hv 80
  obtain ⟨z1, z2, _⟩ := tryteZeroLastTrit_spec g1 g2
  have hlen : (vs.take 80).length = 80 := by simp [hl]
  have hu := unbal_int (vs.take 80) (tryteZeroLastTrit (vs.getD 80 0) + 4).toNat
    (TrytesOK_take hv 80)
  rw [hlen, Int.toNat_of_nonneg (by omega)] at hu
  have hb := bias_eq
  have hmain : bytesInt (encBytes (encVal vs))
      = radixVal (vs.take 80) + tryteZeroLastTrit (vs.getD 80 0) * 27 ^ 80 := by
    rw [e3]
    unfold encVal
    rw [hu, ← hb]
    ring
  refine ⟨_, tryteValuesToBytes_encBytes hl hv, e1, e2, hmain, ?_⟩
  intro ts h1 h2 h3
  rw [hmain, ← h3]
  exact tritVal_zero_last h1 h2

/-- Witness of C6 on the tryte values of the first tryte string of the test table. -/
theorem encoder_value_witness :
    (sampleValues.length = 81 ∧ TrytesOK sampleValues) ∧
    ∃ bs, tryteValuesToBytes sampleValues = some bs ∧ bs.length = 48 ∧ BytesOK bs ∧
      bytesInt bs = radixVal (sampleValues.take 80)
        + tryteZeroLastTrit (sampleValues.getD 80 0) * 27 ^ 80 ∧
      (∀ ts : List Int, ts.length = 243 → TritsOK ts → tritsToTryteValues ts = sampleValues →
        bytesInt bs = tritVal (ts.set 242 0)) :=
  ⟨⟨by decide, by unfold TrytesOK; decide⟩,
    encoder_value sampleValues (by decide) (by unfold TrytesOK; decide)⟩

/-- C7: for every 48-byte input, `bytesToTryteValues` returns 81 tryte values, all between
-13 and 13 and the last (index 80) between -4 and 4, whose radix-27 sum is the canonicalized
value of the input, the value of the bytes `KerlBytesZeroLastTrit` leaves; consequently the
last trit (index 242) of `KerlBytesToTrits` is 0 and every table index `v - MinTryteValue`
lies between 0 and 26. -/
theorem decoder_correct (b : List Nat) (hl : b.length = 48) (hb : BytesOK b) :
    ∃ vs, bytesToTryteValues b = some vs ∧ vs.length = 81 ∧ TrytesOK vs ∧
      (-4 ≤ vs.getD 80 0 ∧ vs.getD 80 0 ≤ 4) ∧
      radixVal vs = canonInt (bytesInt b) ∧
      (∃ r, KerlBytesZeroLastTrit b = some r ∧ radixVal vs = bytesInt r) ∧
      (∃ ts, KerlBytesToTrits b = some (ts, none) ∧ ts.length = 243 ∧ ts.getD 242 0 = 0) ∧
      (∀ v ∈ vs, 0 ≤ int8 (v - MinTryteValue) ∧ int8 (v - MinTryteValue) ≤ 26) := by
  obtain ⟨_, d2⟩ := decInit_spec hl hb
  obtain ⟨v1, v2, v3, _⟩ := decTrytes_spec d2
  obtain ⟨_, _, e3, _⟩ := encBytes_spec d2
  obtain ⟨c1, c2⟩ := canonInt_range hl hb
  obtain ⟨ts, s1, s2, _, s4, _⟩ := KerlBytesToTrits_spec hl hb
  have hr := radixVal_decTrytes (decVal b)
  refine ⟨_, bytesToTryteValues_decTrytes hl hb, v1, v2, v3, ?_,
    ⟨_, KerlBytesZeroLastTrit_eq hl hb, by rw [hr, e3]⟩, ⟨ts, s1, s2, s4⟩, ?_⟩
  · rw [hr]; unfold decVal; omega
  · intro v hv
    exact index_range (v2 v hv).1 (v2 v hv).2

/-- Witness of C7 on the least 384-bit integer. -/
theorem decoder_correct_witness :
    (minBytes.length = 48 ∧ BytesOK minBytes) ∧
    ∃ vs, bytesToTryteValues minBytes = some vs ∧ vs.length = 81 ∧ TrytesOK vs ∧
      (-4 ≤ vs.getD 80 0 ∧ vs.getD 80 0 ≤ 4) ∧
      radixVal vs = canonInt (bytesInt minBytes) ∧
      (∃ r, KerlBytesZeroLastTrit minBytes = some r ∧ radixVal vs = bytesInt r) ∧
      (∃ ts, KerlBytesToTrits minBytes = some (ts, none) ∧ ts.length = 243 ∧
        ts.getD 242 0 = 0) ∧
      (∀ v ∈ vs, 0 ≤ int8 (v - MinTryteValue) ∧ int8 (v - MinTryteValue) ≤ 26) :=
  ⟨⟨by decide, by unfold BytesOK minBytes; decide⟩,
    decoder_correct minBytes (by decide) (by unfold BytesOK minBytes; decide)⟩

/-- C8: for every 48-byte input, decoding to trytes and encoding again yields exactly the
bytes that `KerlBytesZeroLastTrit` leaves in a copy of the input. -/
theorem roundtrip_is_canonicalization (b : List Nat) (hl : b.length = 48) (hb : BytesOK b) :
    ∃ t r, KerlBytesToTrytes b = some (t, none) ∧ KerlTrytesToBytes t = some (r, none) ∧
      KerlBytesZeroLastTrit b = some r := by
  obtain ⟨t, t1, t2⟩ := decode_encode_bytes hl hb
  exact ⟨t, _, t1, t2, KerlBytesZeroLastTrit_eq hl hb⟩

/-- Witness of C8 on the least 384-bit integer, which is not canonical. -/
theorem roundtrip_is_canonicalization_witness :
    (minBytes.length = 48 ∧ BytesOK minBytes) ∧
    ∃ t r, KerlBytesToTrytes minBytes = some (t, none) ∧
      KerlTrytesToBytes t = some (r, none) ∧ KerlBytesZeroLastTrit minBytes = some r :=
  ⟨⟨by decide, by unfold BytesOK minBytes; decide⟩,
    roundtrip_is_canonicalization minBytes (by decide) (by unfold BytesOK minBytes; decide)⟩

/-- C9 (as the code behaves): length validation is exact. `KerlTrytesToBytes` returns an
error and no bytes exactly when the input length is not 81, `KerlTritsToBytes` exactly when
it is not 243, and `KerlBytesToTrytes` and `KerlBytesToTrits` return an error and an empty
result exactly when the input length is not 48. Every 48-byte input is decoded with a result
of full size and no error, and every correctly sized well-formed input of the encoders (81
letters of the tryte alphabet, 243 trits each -1, 0 or 1) is encoded to 48 bytes with no
error. -/
theorem length_validation :
    (∀ t : List Char,
      ((∃ e, KerlTrytesToBytes t = some ([], some e)) ↔ strLen t ≠ 81) ∧
      (strLen t = 81 → AlphabetOK t →
        ∃ bs, KerlTrytesToBytes t = some (bs, none) ∧ bs.length = 48)) ∧
    (∀ ts : List Int,
      ((∃ e, KerlTritsToBytes ts = some ([], some e)) ↔ ts.length ≠ 243) ∧
      (ts.length = 243 → TritsOK ts →
        ∃ bs, KerlTritsToBytes ts = some (bs, none) ∧ bs.length = 48)) ∧
    (∀ b : List Nat,
      ((∃ e, KerlBytesToTrytes b = some ([], some e)) ↔ b.length ≠ 48) ∧
      ((∃ e, KerlBytesToTrits b = some ([], some e)) ↔ b.length ≠ 48) ∧
      (b.length = 48 → BytesOK b →
        (∃ t, KerlBytesToTrytes b = some (t, none) ∧ strLen t = 81) ∧
        (∃ ts, KerlBytesToTrits b = some (ts, none) ∧ ts.length = 243))) := by
  refine ⟨fun t => ⟨⟨?_, ?_⟩, ?_⟩, fun ts => ⟨⟨?_, ?_⟩, ?_⟩, fun b => ⟨⟨?_, ?_⟩, ⟨?_, ?_⟩, ?_⟩⟩
  · rintro ⟨e, he⟩ hlen
    unfold KerlTrytesToBytes at he
    rw [if_neg (by simp [hlen, HashTrytesSize])] at he
    exact map_ne_error _ _ _ he
  · intro hlen
    unfold KerlTrytesToBytes
    rw [if_pos (by simpa [HashTrytesSize] using hlen)]
    exact ⟨_, rfl⟩
  · intro hlen ha
    obtain ⟨v1, v2, v3, _⟩ := values_of_trytes t ha
    rw [← v2, hlen] at v3
    exact ⟨_, KerlTrytesToBytes_spec hlen v1 v3, (encBytes_spec (encVal_lt v3 v1)).1⟩
  · rintro ⟨e, he⟩ hlen
    unfold KerlTritsToBytes at he
    have hcan : CanBeHash ts = true := by unfold CanBeHash HashTrinarySize; simp [hlen]
    rw [hcan] at he
    exact map_ne_error _ _ _ he
  · intro hlen
    unfold KerlTritsToBytes
    have hcan : CanBeHash ts = false := by unfold CanBeHash HashTrinarySize; simp [hlen]
    rw [hcan]
    exact ⟨_, rfl⟩
  · intro hlen ht
    obtain ⟨q1, q2, _⟩ := @tritsToTryteValues_spec 81 ts (by omega) ht
    refine ⟨_, ?_, (encBytes_spec (encVal_lt q1 q2)).1⟩
    unfold KerlTritsToBytes
    have hcan : CanBeHash ts = true := by unfold CanBeHash HashTrinarySize; simp [hlen]
    rw [hcan, tryteValuesToBytes_encBytes q1 q2]
    rfl
  · rintro ⟨e, he⟩ hlen
    unfold KerlBytesToTrytes at he
    rw [if_neg (by simp [hlen, HashBytesSize])] at he
    exact map_ne_error _ _ _ he
  · intro hlen
    unfold KerlBytesToTrytes
    rw [if_pos (by simpa [HashBytesSize] using hlen)]
    exact ⟨_, rfl⟩
  · rintro ⟨e, he⟩ hlen
    unfold KerlBytesToTrits at he
    rw [if_neg (by simp [hlen, HashBytesSize])] at he
    exact map_ne_error _ _ _ he
  · intro hlen
    unfold KerlBytesToTrits
    rw [if_pos (by simpa [HashBytesSize] using hlen)]
    exact ⟨_, rfl⟩
  · intro hlen hb
    obtain ⟨t, t1, _, t3, _⟩ := KerlBytesToTrytes_spec hlen hb
    obtain ⟨ts, s1, s2, _⟩ := KerlBytesToTrits_spec hlen hb
    exact ⟨⟨t, t1, t3⟩, ⟨ts, s1, s2⟩⟩

set_option maxRecDepth 100000 in
/-- Instances of C9: the empty string, the two-letter string of the test table, and 47
bytes are rejected; the sample bytes are decoded, and the sample trytes and 243 trits all
equal to 1 are encoded to 48 bytes. -/
theorem length_validation_witness :
    (∃ e, KerlTrytesToBytes [] = some ([], some e)) ∧
    (∃ e, KerlTrytesToBytes ['A', 'R'] = some ([], some e)) ∧
    (∃ e, KerlTritsToBytes [] = some ([], some e)) ∧
    (∃ e, KerlTritsToBytes [1, 0, 0, 0, 0, -1] = some ([], some e)) ∧
    (∃ e, KerlBytesToTrytes (List.replicate 47 0) = some ([], some e)) ∧
    (∃ e, KerlBytesToTrits (List.replicate 49 0) = some ([], some e)) ∧
    ((∃ t, KerlBytesToTrytes sampleBytes = some (t, none) ∧ strLen t = 81) ∧
      (∃ ts, KerlBytesToTrits sampleBytes = some (ts, none) ∧ ts.length = 243)) ∧
    (∃ bs, KerlTrytesToBytes sampleTrytes = some (bs, none) ∧ bs.length = 48) ∧
    (∃ bs, KerlTritsToBytes (List.replicate 243 1) = some (bs, none) ∧ bs.length = 48) :=
  ⟨((length_validation.1 []).1).mpr (by decide),
    ((length_validation.1 ['A', 'R']).1).mpr (by decide),
    ((length_validation.2.1 []).1).mpr (by decide),
    ((length_validation.2.1 [1, 0, 0, 0, 0, -1]).1).mpr (by decide),
    ((length_validation.2.2 (List.replicate 47 0)).1).mpr (by decide),
    ((length_validation.2.2 (List.replicate 49 0)).2.1).mpr (by decide),
    (length_validation.2.2 sampleBytes).2.2 (by decide) (by unfold BytesOK sampleBytes; decide),
    (length_validation.1 sampleTrytes).2 (by decide) (by unfold AlphabetOK; decide),
    (length_validation.2.1 (List.replicate 243 1)).2 (by decide)
      (by intro t h; rw [List.eq_of_mem_replicate h]; decide)⟩

/-- Counterexample to C9 as stated: `overflowTrytes` is a string of 81 bytes, a correctly
sized input, and `KerlTrytesToBytes` neither returns bytes nor an error on it. Two of its
characters are outside the tryte alphabet; the addition of the digit at index 1 carries out
of the twelfth word, `AddSmall` returns 12, `nzIndex` becomes 12, and the multiply of the
last iteration reads `b[12]`. -/
theorem length_validation_counterexample :
    strLen overflowTrytes = 81 ∧ KerlTrytesToBytes overflowTrytes = none ∧
      ¬ ∃ bs, KerlTrytesToBytes overflowTrytes = some (bs, none) ∧ bs.length = 48 := by
  have h : KerlTrytesToBytes overflowTrytes = none := by decide
  refine ⟨by decide, h, ?_⟩
  rintro ⟨bs, h1, _⟩
  rw [h] at h1
  exact Option.noConfusion h1

/-- C10 (as the code behaves): the length error of `KerlTrytesToBytes` wraps
`ErrInvalidTrytesLength` with the message "must be 48 in size": the format argument is
`HashBytesSize`, not the expected 81 of `HashTrytesSize`. -/
theorem trytes_length_error_message :
    KerlTrytesToBytes ['A', 'R']
      = some ([], some ⟨Sentinel.ErrInvalidTrytesLength, "must be 48 in size"⟩) := by
  decide

/-- The sibling length errors name the expected size of their input: 243 for trits and 48
for bytes. -/
theorem sibling_length_error_messages :
    KerlTritsToBytes [1, 0, 0, 0, 0, -1]
      = some ([], some ⟨Sentinel.ErrInvalidTritsLength, "must be 243 in size"⟩) ∧
    KerlBytesToTrytes [] = some ([], some ⟨Sentinel.ErrInvalidBytesLength, "must be 48 in size"⟩) ∧
    KerlBytesToTrits [] = some ([], some ⟨Sentinel.ErrInvalidBytesLength, "must be 48 in size"⟩) := by
  decide

/-- C11: the tryte alphabet mapping is an exact bijection: `9` has value 0, `A` to `M` the
values 1 to 13 and `N` to `Z` the values -13 to -1; converting a string over the alphabet
to tryte values and back returns the string, and converting tryte values between -13 and 13
to letters and back returns the values. -/
theorem alphabet_bijection :
    trytesToTryteValues
        ['9', 'A', 'B', 'C', 'D', 'E', 'F', 'G', 'H', 'I', 'J', 'K', 'L', 'M',
         'N', 'O', 'P', 'Q', 'R', 'S', 'T', 'U', 'V', 'W', 'X', 'Y', 'Z']
      = [0, 1, 2, 3, 4, 5, 6, 7, 8, 9, 10, 11, 12, 13,
         -13, -12, -11, -10, -9, -8, -7, -6, -5, -4, -3, -2, -1] ∧
    (∀ s : List Char, AlphabetOK s →
      TrytesOK (trytesToTryteValues s) ∧
        tryteValuesToTrytes (trytesToTryteValues s) = some s) ∧
    (∀ vs : List Int, TrytesOK vs →
      ∃ s, tryteValuesToTrytes vs = some s ∧ AlphabetOK s ∧ trytesToTryteValues s = vs) := by
  refine ⟨by decide, ?_, ?_⟩
  · intro s hs
    obtain ⟨h1, _, _, h4⟩ := values_of_trytes s hs
    exact ⟨h1, h4⟩
  · intro vs hv
    obtain ⟨s, s1, s2, _, s4⟩ := trytes_of_values vs hv
    exact ⟨s, s1, s2, s4⟩

/-- Instances of C11 on the first tryte string of the test table and its values. -/
theorem alphabet_bijection_witness :
    (TrytesOK (trytesToTryteValues sampleTrytes) ∧
      tryteValuesToTrytes (trytesToTryteValues sampleTrytes) = some sampleTrytes) ∧
    (∃ s, tryteValuesToTrytes sampleValues = some s ∧ AlphabetOK s ∧
      trytesToTryteValues s = sampleValues) :=
  ⟨alphabet_bijection.2.1 sampleTrytes (by unfold AlphabetOK; decide),
    alphabet_bijection.2.2 sampleValues (by unfold TrytesOK; decide)⟩

/-- C12: the tables between tryte values and trit triples are mutually inverse: the entry
`(a, b, c)` of every value `v` between -13 and 13 consists of trits with
`a + 3b + 9c = v`; converting tryte values to trits and back returns the values; and
converting a trit sequence whose length is a multiple of 3 to tryte values and back returns
the trits. -/
theorem trit_tables_inverse :
    (∀ v : Int, -13 ≤ v → v ≤ 13 →
      ∃ a b c, lutGet tryteValueToTritsLUT (int8 (v - MinTryteValue)) = some (a, b, c) ∧
        (-1 ≤ a ∧ a ≤ 1) ∧ (-1 ≤ b ∧ b ≤ 1) ∧ (-1 ≤ c ∧ c ≤ 1) ∧ a + 3 * b + 9 * c = v) ∧
    (∀ vs : List Int, TrytesOK vs →
      ∃ ts, tryteValuesToTrits vs = some ts ∧ TritsOK ts ∧ tritsToTryteValues ts = vs) ∧
    (∀ (ts : List Int) (k : Nat), ts.length = 3 * k → TritsOK ts →
      TrytesOK (tritsToTryteValues ts) ∧
        tryteValuesToTrits (tritsToTryteValues ts) = some ts) := by
  refine ⟨fun v h1 h2 => value_trits h1 h2, ?_, ?_⟩
  · intro vs hv
    obtain ⟨ts, t1, _, t3, t4⟩ := values_of_trits vs hv
    exact ⟨ts, t1, t3, t4⟩
  · intro ts k hl ht
    obtain ⟨_, h2, h3⟩ := @tritsToTryteValues_spec k ts hl ht
    exact ⟨h2, h3⟩

set_option maxRecDepth 100000 in
/-- Instances of C12 on the values of the first tryte string of the test table and on 243
trits equal to 1. -/
theorem trit_tables_inverse_witness :
    (∃ ts, tryteValuesToTrits sampleValues = some ts ∧ TritsOK ts ∧
      tritsToTryteValues ts = sampleValues) ∧
    (TrytesOK (tritsToTryteValues sampleTrits) ∧
      tryteValuesToTrits (tritsToTryteValues sampleTrits) = some sampleTrits) :=
  ⟨trit_tables_inverse.2.1 sampleValues (by unfold TrytesOK; decide),
    trit_tables_inverse.2.2 sampleTrits 81 (by decide) (by unfold TritsOK; decide)⟩

/-- C13 as stated fails on the tryte values of the first tryte string of the test table:
their top value is 3, so the claim asks for word 0 to be 16, and the code stores 7. -/
theorem encInit_plus13_counterexample :
    (sampleValues.length = 81 ∧ TrytesOK sampleValues) ∧
    tryteZeroLastTrit (sampleValues.getD 80 0) + 13 = 16 ∧
    (encInit sampleValues).1 = [7, 0, 0, 0, 0, 0, 0, 0, 0, 0, 0, 0] ∧
    ¬ (((encInit sampleValues).1.getD 0 0 : Nat) : Int)
        = tryteZeroLastTrit (sampleValues.getD 80 0) + 13 := by
  refine ⟨⟨by decide, by unfold TrytesOK; decide⟩, by decide, by decide, by decide⟩

/-- C13 (amended): in the encoder, for every 81 valid tryte values the working integer is
initialised to the canonicalized top tryte value plus 4: after initialisation word 0 equals
`tryteZeroLastTrit (vs[80]) + 4`, all other words are 0 and `nzIndex` is 0. -/
theorem encInit_value (vs : List Int) (hl : vs.length = 81) (hv : TrytesOK vs) :
    encState vs 0 = encInit vs ∧
    vs.getD 80 0 = vs.get ⟨80, by omega⟩ ∧
    (encInit vs).1 = (tryteZeroLastTrit (vs.getD 80 0) + 4).toNat :: List.replicate 11 0 ∧
    (((encInit vs).1.getD 0 0 : Nat) : Int) = tryteZeroLastTrit (vs.getD 80 0) + 4 ∧
    (∀ j, 0 < j → (encInit vs).1.getD j 0 = 0) ∧
    (encInit vs).2 = 0 := by
  obtain ⟨g1, g2⟩ := TrytesOK_getD hv 80
  obtain ⟨z1, z2, _⟩ := tryteZeroLastTrit_spec g1 g2
  have e : uint32 (int8 (tryteZeroLastTrit (vs.getD 80 0) + 4))
      = (tryteZeroLastTrit (vs.getD 80 0) + 4).toNat := by
    unfold uint32 int8; omega
  have hlist : (encInit vs).1
      = (tryteZeroLastTrit (vs.getD 80 0) + 4).toNat :: List.replicate 11 0 := by
    simp only [encInit, HashTrytesSize, IntLength, e, List.replicate, List.set_cons_zero]
  refine ⟨rfl, ?_, hlist, ?_, ?_, rfl⟩
  · rw [List.getD_eq_getElem?_getD, List.getElem?_eq_getElem (by omega)]
    rfl
  · rw [hlist, List.getD_cons_zero, Int.toNat_of_nonneg (by omega)]
  · intro j hj
    rw [hlist]
    cases j with
    | zero => omega
    | succ j =>
      rw [List.getD_cons_succ, List.getD_eq_getElem?_getD]
      by_cases hlt : j < 11
      · interval_cases j <;> rfl
      · rw [List.getElem?_eq_none (by simpa using hlt)]
        rfl

/-- Witness of the amended C13 on the tryte values of the first tryte string of the test
table. -/
theorem encInit_value_witness :
    (sampleValues.length = 81 ∧ TrytesOK sampleValues) ∧
    (encState sampleValues 0 = encInit sampleValues ∧
    sampleValues.getD 80 0 = sampleValues.get ⟨80, by decide⟩ ∧
    (encInit sampleValues).1
      = (tryteZeroLastTrit (sampleValues.getD 80 0) + 4).toNat :: List.replicate 11 0 ∧
    (((encInit sampleValues).1.getD 0 0 : Nat) : Int)
      = tryteZeroLastTrit (sampleValues.getD 80 0) + 4 ∧
    (∀ j, 0 < j → (encInit sampleValues).1.getD j 0 = 0) ∧
    (encInit sampleValues).2 = 0) :=
  ⟨⟨by decide, by unfold TrytesOK; decide⟩,
    encInit_value sampleValues (by decide) (by unfold TrytesOK; decide)⟩

set_option exponentiation.threshold 512 in
/-- C14: the bias constants equal their stated definitions. Read least-significant word
first as unsigned 384-bit numbers, `halfThree` is the sum of `3^k` for `k` from 0 to 241,
that is `(3^242 - 1) / 2`, `trit243` is `3^242` and `negHalfThree` is
`2^384 - halfThree`; in particular `trit243 = 2 * halfThree + 1` and
`halfThree < 2^383`. -/
theorem bias_constants :
    (halfThree.length = 12 ∧ trit243.length = 12 ∧ negHalfThree.length = 12) ∧
    (WordsOK halfThree ∧ WordsOK trit243 ∧ WordsOK negHalfThree) ∧
    wordsVal halfThree = Finset.sum (Finset.range 242) (fun k => 3 ^ k) ∧
    wordsVal halfThree = (3 ^ 242 - 1) / 2 ∧
    wordsVal trit243 = 3 ^ 242 ∧
    wordsVal negHalfThree = 2 ^ 384 - wordsVal halfThree ∧
    wordsVal trit243 = 2 * wordsVal halfThree + 1 ∧
    wordsVal halfThree < 2 ^ 383 := by
  have hsum : Finset.sum (Finset.range 242) (fun k => 3 ^ k) = (3 ^ 242 - 1) / 2 := by
    rw [Nat.geomSum_eq (by norm_num)]
  refine ⟨by decide, ⟨by unfold WordsOK halfThree; decide, by unfold WordsOK trit243; decide,
    by unfold WordsOK negHalfThree; decide⟩, ?_, ?_, wordsVal_trit243, ?_, ?_, ?_⟩
  · rw [hsum]; exact wordsVal_halfThree
  · exact wordsVal_halfThree
  · rw [wordsVal_negHalfThree, wordsVal_halfThree, two_pow_384]
  · rw [wordsVal_trit243, wordsVal_halfThree]; exact trit_eq
  · rw [wordsVal_halfThree, two_pow_383]; exact halfThreeVal_lt

/-- C15: for all trits `a`, `b`, `c`, `tryteZeroLastTrit (a + 3b + 9c) = a + 3b`; hence for
every `v` between -13 and 13 the result lies between -4 and 4, differs from `v` by 0, 9 or
-9, and `tryteZeroLastTrit` is idempotent. -/
theorem tryteZeroLastTrit_correct :
    (∀ a b c : Int, (-1 ≤ a ∧ a ≤ 1) → (-1 ≤ b ∧ b ≤ 1) → (-1 ≤ c ∧ c ≤ 1) →
      tryteZeroLastTrit (a + 3 * b + 9 * c) = a + 3 * b) ∧
    (∀ v : Int, -13 ≤ v → v ≤ 13 →
      (-4 ≤ tryteZeroLastTrit v ∧ tryteZeroLastTrit v ≤ 4) ∧
      (tryteZeroLastTrit v = v ∨ tryteZeroLastTrit v = v - 9 ∨ tryteZeroLastTrit v = v + 9) ∧
      tryteZeroLastTrit (tryteZeroLastTrit v) = tryteZeroLastTrit v) := by
  refine ⟨fun a b c ha hb hc => zero_top_trit ha hb hc, ?_⟩
  intro v h1 h2
  obtain ⟨z1, z2, z3⟩ := tryteZeroLastTrit_spec h1 h2
  exact ⟨⟨z1, z2⟩, z3, tryteZeroLastTrit_idem h1 h2⟩

/-- Instances of C15 at the trits 1, -1, 1 (value 7) and at the value 13. -/
theorem tryteZeroLastTrit_correct_witness :
    tryteZeroLastTrit (1 + 3 * (-1) + 9 * 1) = 1 + 3 * (-1) ∧
    ((-4 ≤ tryteZeroLastTrit 13 ∧ tryteZeroLastTrit 13 ≤ 4) ∧
      (tryteZeroLastTrit 13 = 13 ∨ tryteZeroLastTrit 13 = 13 - 9 ∨
        tryteZeroLastTrit 13 = 13 + 9) ∧
      tryteZeroLastTrit (tryteZeroLastTrit 13) = tryteZeroLastTrit 13) :=
  ⟨tryteZeroLastTrit_correct.1 1 (-1) 1 (by decide) (by decide) (by decide),
    tryteZeroLastTrit_correct.2 13 (by decide) (by decide)⟩

set_option exponentiation.threshold 512 in
/-- C16: the encoder never overflows on valid input. For every 81 tryte values between -13
and 13, after every number of Horner steps the working integer is a 12-word value below
`3^242` (itself below `2^384`); at every step the scalar `vs[i] + 13` passed to `AddSmall`
lies between 0 and 26, the step computes `27 * n + (vs[i] + 13)` exactly, and the
multiplication by 27 leaves a non-zero carry only when `nzIndex < IntLength - 1` (none when
`nzIndex` is 11), so the guard never discards a carry; the final subtraction of `halfThree`
yields a value between `-halfThree` and `halfThree`, representable in 384-bit two's
complement. -/
theorem encoder_no_overflow (vs : List Int) (hl : vs.length = 81) (hv : TrytesOK vs) :
    (3 : Nat) ^ 242 < 2 ^ 384 ∧
    (∀ k, k ≤ 80 → (encState vs k).1.length = IntLength ∧ WordsOK (encState vs k).1 ∧
      (encState vs k).2 < IntLength ∧ wordsVal (encState vs k).1 < 3 ^ 242) ∧
    (∀ k, k < 80 →
      (0 ≤ vs.getD (79 - k) 0 + halfTryte ∧ vs.getD (79 - k) 0 + halfTryte ≤ 26 ∧
        uint32 (int8 (vs.getD (79 - k) 0 + halfTryte)) ≤ 26) ∧
      encState vs (k + 1) = encStep (encState vs k) (vs.getD (79 - k) 0) ∧
      wordsVal (encState vs (k + 1)).1
        = 27 * wordsVal (encState vs k).1 + uint32 (int8 (vs.getD (79 - k) 0 + halfTryte)) ∧
      ((mulRadix ((encState vs k).2 + 1) (encState vs k).1 0).2 > 0 →
        (encState vs k).2 < IntLength - 1) ∧
      ((encState vs k).2 = IntLength - 1 →
        (mulRadix ((encState vs k).2 + 1) (encState vs k).1 0).2 = 0)) ∧
    (∃ bs, tryteValuesToBytes vs = some bs ∧
      bs = Reverse (bytesOfWords (MustSub (encState vs 80).1 halfThree)) ∧
      bytesInt bs = (wordsVal (encState vs 80).1 : Int) - (wordsVal halfThree : Int) ∧
      -(wordsVal halfThree : Int) ≤ bytesInt bs ∧ bytesInt bs ≤ (wordsVal halfThree : Int) ∧
      -(2 ^ 383 : Int) ≤ bytesInt bs ∧ bytesInt bs < (2 ^ 383 : Int)) := by
  have e242 : 3 ^ 242 = 9 * 27 ^ 80 := by norm_num
  refine ⟨by rw [two_pow_384]; exact trit_lt, ?_, ?_, ?_⟩
  · intro k hk
    obtain ⟨n, ⟨i1, i2, i3, i4, _⟩, h2⟩ := encState_spec hl hv hk
    have hpow : 27 ^ k ≤ 27 ^ 80 := Nat.pow_le_pow_right (by norm_num) hk
    exact ⟨i1, i2, i3, by rw [i4]; omega⟩
  · intro k hk
    obtain ⟨n, h1, h2, h3⟩ := encState_step hl hv hk
    obtain ⟨d1, d2, d3, _⟩ := digit_range hv (79 - k)
    have hs := encState_succ hl hk
    obtain ⟨_, _, _, s4, _⟩ := encStep_spec (vs.getD (79 - k) 0) h1 h3
    obtain ⟨i1, i2, i3, i4, i5⟩ := h1
    obtain ⟨_, _, _, m4, _⟩ := mulRadix_spec ((encState vs k).2 + 1) (encState vs k).1 0
      (by rw [i1]; omega) i2 (by rw [i4]; exact i5) (by norm_num)
    have hcarry : (encState vs k).2 = IntLength - 1 →
        (mulRadix ((encState vs k).2 + 1) (encState vs k).1 0).2 = 0 := by
      intro h11
      simp only [IntLength] at h11 h3
      rw [h11] at m4 ⊢
      rw [i4] at m4
      by_contra hne
      have : 4294967296 ^ (11 + 1) * 1
          ≤ 4294967296 ^ (11 + 1) * (mulRadix (11 + 1) (encState vs k).1 0).2 :=
        Nat.mul_le_mul_left _ (by omega)
      omega
    refine ⟨⟨d1, d2, d3⟩, hs, by rw [hs, s4, i4], ?_, hcarry⟩
    intro hpos
    by_contra hge
    have h11 : (encState vs k).2 = IntLength - 1 := by
      simp only [IntLength] at hge i3 ⊢; omega
    rw [hcarry h11] at hpos
    exact absurd hpos (lt_irrefl 0)
  · obtain ⟨_, _, e3, _⟩ := encBytes_spec (encVal_lt hl hv)
    have hfin := encState_final hl hv
    have henc := tryteValuesToBytes_encBytes hl hv
    have hbs : Reverse (bytesOfWords (MustSub (encState vs 80).1 halfThree))
        = encBytes (encVal vs) := by
      rw [hfin] at henc; exact Option.some.inj henc
    have hlt := encVal_lt hl hv
    have t1 := trit_eq
    have t2 := halfThreeVal_lt
    refine ⟨_, hfin, rfl, ?_, ?_, ?_, ?_, ?_⟩ <;>
      rw [hbs, e3] <;> try rw [encState_val80 hl hv, wordsVal_halfThree]
    · rw [wordsVal_halfThree]; omega
    · rw [wordsVal_halfThree]; omega
    · have e : (2 : Int) ^ 383 = 2147483648 * 4294967296 ^ 11 := by norm_num
      rw [e]; omega
    · have e : (2 : Int) ^ 383 = 2147483648 * 4294967296 ^ 11 := by norm_num
      rw [e]; omega

set_option exponentiation.threshold 512 in
/-- Witness of C16 on the tryte values of the first tryte string of the test table. -/
theorem encoder_no_overflow_witness :
    (sampleValues.length = 81 ∧ TrytesOK sampleValues) ∧
    ∀ k, k ≤ 80 → (encState sampleValues k).1.length = IntLength ∧
      WordsOK (encState sampleValues k).1 ∧ (encState sampleValues k).2 < IntLength ∧
      wordsVal (encState sampleValues k).1 < 3 ^ 242 :=
  ⟨⟨by decide, by unfold TrytesOK; decide⟩,
    (encoder_no_overflow sampleValues (by decide) (by unfold TrytesOK; decide)).2.1⟩

/-- C17: in the decoder, for every 48-byte input, after canonicalization and adding
`halfThree` the working integer lies between 0 and `3^242 - 1`; after the 80 divisions by
27 the remaining integer is some `t` between 0 and 8 with words 1 to 11 all zero, so that
`tryteZeroLastTrit (int8 (b[0]) - 13)` equals `b[0] - 4`, which is the value at index 80
of the result and the exact most-significant balanced digit of the canonical value. -/
theorem decoder_last_digit (b : List Nat) (hl : b.length = 48) (hb : BytesOK b) :
    (decState b 0).1 = decInit b ∧
    wordsVal (decInit b) < 3 ^ 242 ∧
    (wordsVal (decInit b) : Int) = canonInt (bytesInt b) + (wordsVal halfThree : Int) ∧
    ∃ t, t ≤ 8 ∧ (decState b 80).1 = t :: List.replicate 11 0 ∧
      (decLoop (HashTrytesSize - 1) (decInit b) (IntLength - 1)).2 = (decState b 80).1 ∧
      tryteZeroLastTrit (int8 (int8 (t : Int) - halfTryte)) = (t : Int) - 4 ∧
      ∃ vs, bytesToTryteValues b = some vs ∧ vs.length = 81 ∧ TrytesOK vs ∧
        vs.getD 80 0 = (t : Int) - 4 ∧ radixVal vs = canonInt (bytesInt b) := by
  obtain ⟨d1, d2⟩ := decInit_spec hl hb
  have hval : wordsVal (decInit b) = decVal b := by
    rw [d1, wordsVal_natToWords]
    exact Nat.mod_eq_of_lt (lt_trans d2 trit_lt)
  obtain ⟨c1, c2⟩ := canonInt_range hl hb
  have h8 := div_top_le d2
  obtain ⟨s1, s2, _, _, s5⟩ := decState_spec hl hb 80
  obtain ⟨v1, v2, _, _⟩ := decTrytes_spec d2
  have hlist : (decState b 80).1 = (decVal b / 27 ^ 80) :: List.replicate 11 0 := by
    have := natToWords_wordsVal s2
    rw [s1, s5] at this
    rw [← this]
    exact natToWords_small (by omega)
  have hget : (decTrytes (decVal b)).getD 80 0 = ((decVal b / 27 ^ 80 : Nat) : Int) - 4 := by
    unfold decTrytes
    rw [List.getD_append_right _ _ _ _ (by rw [length_digits27]), length_digits27]
    rfl
  refine ⟨rfl, by rw [hval]; exact d2, ?_, decVal b / 27 ^ 80, h8, hlist,
    (decLoop_iter 80 (decInit b) 11).1, top_digit h8,
    _, bytesToTryteValues_decTrytes hl hb, v1, v2, hget, ?_⟩
  · rw [hval, wordsVal_halfThree]; unfold decVal; omega
  · rw [radixVal_decTrytes]; unfold decVal; omega

/-- Witness of C17 on the least 384-bit integer. -/
theorem decoder_last_digit_witness :
    (minBytes.length = 48 ∧ BytesOK minBytes) ∧
    ((decState minBytes 0).1 = decInit minBytes ∧
    wordsVal (decInit minBytes) < 3 ^ 242 ∧
    (wordsVal (decInit minBytes) : Int)
      = canonInt (bytesInt minBytes) + (wordsVal halfThree : Int) ∧
    ∃ t, t ≤ 8 ∧ (decState minBytes 80).1 = t :: List.replicate 11 0 ∧
      (decLoop (HashTrytesSize - 1) (decInit minBytes) (IntLength - 1)).2
        = (decState minBytes 80).1 ∧
      tryteZeroLastTrit (int8 (int8 (t : Int) - halfTryte)) = (t : Int) - 4 ∧
      ∃ vs, bytesToTryteValues minBytes = some vs ∧ vs.length = 81 ∧ TrytesOK vs ∧
        vs.getD 80 0 = (t : Int) - 4 ∧ radixVal vs = canonInt (bytesInt minBytes)) :=
  ⟨⟨by decide, by unfold BytesOK minBytes; decide⟩,
    decoder_last_digit minBytes (by decide) (by unfold BytesOK minBytes; decide)⟩

/-- C18: the decoder's bounded long division is equivalent to full-width division. For
every 48-byte input and each of the 80 iterations, all words of the working integer above
`nzIndex` are zero, so dividing only words `nzIndex` down to 0 by 27 yields the same
quotient words and the same remainder as dividing all 12 words, namely the quotient and
remainder of the 384-bit integer by 27; the remainder is the one the result is built
from. -/
theorem decoder_bounded_division (b : List Nat) (hl : b.length = 48) (hb : BytesOK b)
    (k : Nat) (hk : k < 80) :
    (∀ j, (decState b k).2 < j → (decState b k).1.getD j 0 = 0) ∧
    divRadix ((decState b k).2 + 1) (decState b k).1 = divRadix IntLength (decState b k).1 ∧
    wordsVal (divRadix ((decState b k).2 + 1) (decState b k).1).1
      = wordsVal (decState b k).1 / 27 ∧
    (divRadix ((decState b k).2 + 1) (decState b k).1).2 = wordsVal (decState b k).1 % 27 ∧
    (decState b (k + 1)).1 = (divRadix ((decState b k).2 + 1) (decState b k).1).1 ∧
    ∃ vs, bytesToTryteValues b = some vs ∧
      vs.getD k 0
        = int8 (int8 ((divRadix ((decState b k).2 + 1) (decState b k).1).2 : Int)
            - halfTryte) := by
  obtain ⟨s1, s2, s3, s4, _⟩ := decState_spec hl hb k
  obtain ⟨_, _, d3, d4⟩ := divRadix_spec ((decState b k).2 + 1) (decState b k).1
    (by rw [s1]; omega) s2 s4
  obtain ⟨e1, _⟩ := decStep_spec s1 s2 s3 s4
  obtain ⟨i1, _⟩ := decInit_spec hl hb
  have hw : WordsOK (decInit b) := by rw [i1]; exact WordsOK_natToWords _ _
  have hlen : (decInit b).length = 12 := by rw [i1]; exact length_natToWords _ _
  refine ⟨?_, divRadix_full s1 s2 s3 s4, d3, d4, ?_, ?_⟩
  · intro j hj
    exact getD_zero_of_val_lt _ _ s2 s4 j (by omega)
  · unfold decState
    rw [Function.iterate_succ_apply']
    exact e1
  · refine ⟨_, by unfold bytesToTryteValues; rw [if_neg (by simp [hl, HashBytesSize])], ?_⟩
    have hk' : k < (decLoop (HashTrytesSize - 1) (decInit b) (IntLength - 1)).1.length := by
      rw [show HashTrytesSize - 1 = 80 from rfl, show IntLength - 1 = 11 from rfl,
        length_decLoop hlen hw]
      exact hk
    rw [List.getD_append _ _ _ _ hk']
    exact (decLoop_iter 80 (decInit b) 11).2 k hk

/-- Witness of C18 on the least 384-bit integer, at iteration 40. -/
theorem decoder_bounded_division_witness :
    (minBytes.length = 48 ∧ BytesOK minBytes ∧ 40 < 80) ∧
    ((∀ j, (decState minBytes 40).2 < j → (decState minBytes 40).1.getD j 0 = 0) ∧
    divRadix ((decState minBytes 40).2 + 1) (decState minBytes 40).1
      = divRadix IntLength (decState minBytes 40).1 ∧
    wordsVal (divRadix ((decState minBytes 40).2 + 1) (decState minBytes 40).1).1
      = wordsVal (decState minBytes 40).1 / 27 ∧
    (divRadix ((decState minBytes 40).2 + 1) (decState minBytes 40).1).2
      = wordsVal (decState minBytes 40).1 % 27 ∧
    (decState minBytes (40 + 1)).1
      = (divRadix ((decState minBytes 40).2 + 1) (decState minBytes 40).1).1 ∧
    ∃ vs, bytesToTryteValues minBytes = some vs ∧
      vs.getD 40 0
        = int8 (int8 ((divRadix ((decState minBytes 40).2 + 1) (decState minBytes 40).1).2 : Int)
            - halfTryte)) :=
  ⟨⟨by decide, by unfold BytesOK minBytes; decide, by decide⟩,
    decoder_bounded_division minBytes (by decide) (by unfold BytesOK minBytes; decide) 40
      (by decide)⟩

/-- C19: the encoder's bounded multiply is equivalent to full-width arithmetic. For every
81 tryte values between -13 and 13 and each of the 80 Horner iterations, all words of the
working integer above `nzIndex` are zero before the multiply, and the iteration (multiply of
words 0 to `nzIndex`, carry stored in the next word, then `AddSmall`) yields the 12-word
integer `27 * n + (vs[i] + 13)`, the same as the multiply over all 12 words followed by
`AddSmall`. -/
theorem encoder_bounded_multiply (vs : List Int) (hl : vs.length = 81) (hv : TrytesOK vs)
    (k : Nat) (hk : k < 80) :
    (∀ j, (encState vs k).2 < j → (encState vs k).1.getD j 0 = 0) ∧
    encState vs (k + 1) = encStep (encState vs k) (vs.getD (79 - k) 0) ∧
    uint32 (int8 (vs.getD (79 - k) 0 + halfTryte)) = (vs.getD (79 - k) 0 + 13).toNat ∧
    (encStep (encState vs k) (vs.getD (79 - k) 0)).1
      = natToWords IntLength
          (27 * wordsVal (encState vs k).1 + uint32 (int8 (vs.getD (79 - k) 0 + halfTryte))) ∧
    (encStep (encState vs k) (vs.getD (79 - k) 0)).1
      = (AddSmall (mulRadix IntLength (encState vs k).1 0).1
          (uint32 (int8 (vs.getD (79 - k) 0 + halfTryte)))).1 := by
  obtain ⟨n, h1, _, h3⟩ := encState_step hl hv hk
  obtain ⟨_, _, _, d4⟩ := digit_range hv (79 - k)
  obtain ⟨f1, f2, _⟩ := encStep_full (vs.getD (79 - k) 0) h1 h3
  obtain ⟨_, i2, _, i4, i5⟩ := h1
  refine ⟨?_, encState_succ hl hk, d4, by rw [f1, i4], by rw [f1, f2]⟩
  intro j hj
  exact getD_zero_of_val_lt _ _ i2 (by rw [i4]; exact i5) j (by omega)

/-- Witness of C19 on the tryte values of the first tryte string of the test table, at the
iteration that consumes `vs[40]`. -/
theorem encoder_bounded_multiply_witness :
    (sampleValues.length = 81 ∧ TrytesOK sampleValues ∧ 39 < 80) ∧
    ((∀ j, (encState sampleValues 39).2 < j → (encState sampleValues 39).1.getD j 0 = 0) ∧
    encState sampleValues (39 + 1)
      = encStep (encState sampleValues 39) (sampleValues.getD (79 - 39) 0) ∧
    uint32 (int8 (sampleValues.getD (79 - 39) 0 + halfTryte))
      = (sampleValues.getD (79 - 39) 0 + 13).toNat ∧
    (encStep (encState sampleValues 39) (sampleValues.getD (79 - 39) 0)).1
      = natToWords IntLength (27 * wordsVal (encState sampleValues 39).1
          + uint32 (int8 (sampleValues.getD (79 - 39) 0 + halfTryte))) ∧
    (encStep (encState sampleValues 39) (sampleValues.getD (79 - 39) 0)).1
      = (AddSmall (mulRadix IntLength (encState sampleValues 39).1 0).1
          (uint32 (int8 (sampleValues.getD (79 - 39) 0 + halfTryte)))).1) :=
  ⟨⟨by decide, by unfold TrytesOK; decide, by decide⟩,
    encoder_bounded_multiply sampleValues (by decide) (by unfold TrytesOK; decide) 39
      (by decide)⟩

/-- C20: the trit and tryte interfaces agree. For every 81-symbol string over the tryte
alphabet with trit expansion `ts` (three trits per tryte, least-significant first),
`ts` has 243 trits and `KerlTritsToBytes ts` is `KerlTrytesToBytes s`, a success; and for
every 48-byte input, `KerlBytesToTrits` returns the trit expansion of the string
`KerlBytesToTrytes` returns. -/
theorem interfaces_agree :
    (∀ (s : List Char) (ts : List Int), s.length = 81 → AlphabetOK s →
      tryteValuesToTrits (trytesToTryteValues s) = some ts →
      ts.length = 243 ∧ TritsOK ts ∧ KerlTritsToBytes ts = KerlTrytesToBytes s ∧
        ∃ bs, KerlTrytesToBytes s = some (bs, none)) ∧
    (∀ b : List Nat, b.length = 48 → BytesOK b →
      ∃ t ts, KerlBytesToTrytes b = some (t, none) ∧ KerlBytesToTrits b = some (ts, none) ∧
        tryteValuesToTrits (trytesToTryteValues t) = some ts) := by
  constructor
  · intro s ts hl ha hts
    obtain ⟨v1, v2, v3, _⟩ := values_of_trytes s ha
    rw [hl] at v2 v3
    obtain ⟨ts', t1, t2, t3, t4⟩ := values_of_trits _ v1
    rw [hts] at t1
    have e := Option.some.inj t1
    subst e
    rw [v3] at t2
    have hcan : CanBeHash ts = true := by unfold CanBeHash HashTrinarySize; simp [t2]
    have h1 : KerlTritsToBytes ts
        = (tryteValuesToBytes (tritsToTryteValues ts)).map (fun bs => (bs, none)) := by
      unfold KerlTritsToBytes
      rw [hcan]
      rfl
    have h2 : KerlTrytesToBytes s
        = (tryteValuesToBytes (trytesToTryteValues s)).map (fun bs => (bs, none)) := by
      unfold KerlTrytesToBytes
      rw [if_neg (by simp [v2, HashTrytesSize])]
    exact ⟨by omega, t3, by rw [h1, h2, t4], _, KerlTrytesToBytes_spec v2 v1 v3⟩
  · intro b hl hb
    obtain ⟨t, t1, _, _, t4, _⟩ := KerlBytesToTrytes_spec hl hb
    obtain ⟨ts, s1, _, _, _, s5⟩ := KerlBytesToTrits_spec hl hb
    exact ⟨t, ts, t1, s1, by rw [t4]; exact s5⟩

/-- Instances of C20 on the first tryte string of the test table and on the least 384-bit
integer. -/
theorem interfaces_agree_witness :
    (∀ ts : List Int, tryteValuesToTrits (trytesToTryteValues sampleTrytes) = some ts →
      ts.length = 243 ∧ TritsOK ts ∧ KerlTritsToBytes ts = KerlTrytesToBytes sampleTrytes ∧
        ∃ bs, KerlTrytesToBytes sampleTrytes = some (bs, none)) ∧
    (∃ t ts, KerlBytesToTrytes minBytes = some (t, none) ∧
      KerlBytesToTrits minBytes = some (ts, none) ∧
      tryteValuesToTrits (trytesToTryteValues t) = some ts) :=
  ⟨fun ts => interfaces_agree.1 sampleTrytes ts (by decide) (by unfold AlphabetOK; decide),
    interfaces_agree.2 minBytes (by decide) (by unfold BytesOK minBytes; decide)⟩

end Kerl
